import Mathlib

/-!
# Proof-of-Authority scheduler and validator (`src/poa.cpp`)

A shallow embedding of `BasicPoa` from `src/poa.cpp`: the recent-exclusion window
(`getNextBlockMinerSet`), the roster rotation (`getNextBlockMinerList`), the timing rule
(`canMineNextBlock`, both overloads) and the validator (`checkBlock`), together with the
three `getBlockMiner` overloads and the two miner caches.

Conventions of the embedding:
* a C++ function `bool f(args, T& out)` becomes a function returning `Option T`
  (`some v` for `true` with `out = v`, `none` for `false`);
* the two caches are explicit state: every function that may touch them takes a
  `MinerCache` and returns the cache it leaves behind;
* `uint32_t` values are natural numbers, reduced modulo `2^32` where the C++ arithmetic
  is carried out in 32 bits;
* a `std::set<CKeyID>` is a duplicate-free list, observed only through membership;
* host functions whose code is not part of `poa.cpp` (hashing, signature recovery, the
  block map, the header of an index entry) are fields of the structure `Host`.
-/

namespace Poa

/-! ## Data model -/

/-- A `CKeyID`: the 160-bit hash of a public key, as a number. The null id is `0`. -/
abbrev CKeyID := Nat

/-- A 256-bit block hash, as a number. -/
abbrev uint256 := Nat

/-- A `CPubKey`, as a number. -/
abbrev CPubKey := Nat

/-- The fields of `CBlockHeader` that `poa.cpp` reads; `payload` stands for the remaining
header fields (version, merkle root, bits, nonce, ...), which `poa.cpp` never inspects. -/
structure CBlockHeader where
  hashPrevBlock : uint256
  nTime : Nat
  vchBlockSig : List Nat
  payload : Nat
deriving DecidableEq

/-- An entry of the host block index with its parent link. `genesis` is an entry whose
`pprev` is the null pointer; `child` carries a non-null `pprev`. `phashBlock` is `none`
for a null hash pointer. -/
inductive CBlockIndex where
  | genesis (phashBlock : Option uint256) (nTime : Nat) (vchBlockSig : List Nat)
  | child (phashBlock : Option uint256) (nTime : Nat) (vchBlockSig : List Nat)
      (pprev : CBlockIndex)
deriving DecidableEq

namespace CBlockIndex

/-- The field `phashBlock` of an index entry. -/
def phashBlock : CBlockIndex → Option uint256
  | genesis h _ _ => h
  | child h _ _ _ => h

/-- The field `nTime` of an index entry. -/
def nTime : CBlockIndex → Nat
  | genesis _ t _ => t
  | child _ t _ _ => t

/-- The field `vchBlockSig` of an index entry. -/
def vchBlockSig : CBlockIndex → List Nat
  | genesis _ _ s => s
  | child _ _ s _ => s

/-- The field `pprev` of an index entry (`none` for the null pointer). -/
def pprev : CBlockIndex → Option CBlockIndex
  | genesis _ _ _ => none
  | child _ _ _ p => some p

/-- The entries reached by following `pprev` from an entry, the entry itself first and
the genesis entry last. -/
def chain : CBlockIndex → List CBlockIndex
  | genesis h t s => [genesis h t s]
  | child h t s p => child h t s p :: chain p

/-- Number of `pprev` links between an entry and the genesis entry. -/
def height : CBlockIndex → Nat
  | genesis _ _ _ => 0
  | child _ _ _ p => height p + 1

end CBlockIndex

/-- The host functions and globals used by `poa.cpp` whose code lives elsewhere. -/
structure Host where
  /-- Host method `CBlockHeader::IsNull`. -/
  IsNull : CBlockHeader → Bool
  /-- Host method `CBlockHeader::GetHash`. -/
  GetHash : CBlockHeader → uint256
  /-- Host method `CBlockHeader::GetHashWithoutSign`. -/
  GetHashWithoutSign : CBlockHeader → uint256
  /-- Host method `CPubKey::RecoverCompact` (`none` when recovery fails). -/
  RecoverCompact : uint256 → List Nat → Option CPubKey
  /-- Host method `CPubKey::GetID`. -/
  GetID : CPubKey → CKeyID
  /-- Host method `CBlockIndex::GetBlockHeader`. -/
  GetBlockHeader : CBlockIndex → CBlockHeader
  /-- Host constant `Params().GetConsensus().hashGenesisBlock`. -/
  hashGenesisBlock : uint256
  /-- Host lookup `mapBlockIndex.find` (`none` for `mapBlockIndex.end()`). -/
  mapBlockIndex : uint256 → Option CBlockIndex

/-- The configuration members of `BasicPoa` read by the scheduler and the validator. -/
structure BasicPoa where
  _miner_list : List CKeyID
  _miner_set : List CKeyID
  _miner : CKeyID
  _interval : Nat
  _timeout : Nat

/-- Modelled from the spec: the Miner Cache (its four accessors are declared outside
`poa.cpp`). Two maps keyed by block hash: `block_miner` (hash to producer) and
`next_miners` (hash to the ordered eligible list for the following block). -/
structure MinerCache where
  block_miner : uint256 → Option CKeyID
  next_miners : uint256 → Option (List CKeyID)

namespace MinerCache

/-- Modelled from the spec: the cache with no entries. -/
def empty : MinerCache := ⟨fun _ => none, fun _ => none⟩

/-- Modelled from the spec: `get_block_miner`. -/
def readBlockMinerFromCache (c : MinerCache) (hash : uint256) : Option CKeyID :=
  c.block_miner hash

/-- Modelled from the spec: `put_block_miner`; the entry is added and the write
reports success. -/
def writeBlockMinerToCache (c : MinerCache) (hash : uint256) (keyid : CKeyID) :
    MinerCache :=
  ⟨fun h => if h = hash then some keyid else c.block_miner h, c.next_miners⟩

/-- Modelled from the spec: `get_next_miners`. -/
def readNextBlockMinerListFromCache (c : MinerCache) (hash : uint256) :
    Option (List CKeyID) :=
  c.next_miners hash

/-- Modelled from the spec: `put_next_miners`; the entry is added and the write
reports success. -/
def writeNextBlockMinerListToCache (c : MinerCache) (hash : uint256)
    (l : List CKeyID) : MinerCache :=
  ⟨c.block_miner, fun h => if h = hash then some l else c.next_miners h⟩

end MinerCache

/-! ## 32-bit arithmetic -/

/-- Conversion to `uint32_t`. -/
def u32 (x : Nat) : Nat := x % 2 ^ 32

/-- Addition of two `uint32_t` values. -/
def u32add (a b : Nat) : Nat := (a + b) % 2 ^ 32

/-- Multiplication of two `uint32_t` values. -/
def u32mul (a b : Nat) : Nat := (a * b) % 2 ^ 32

/-! ## Signature recovery: the three `getBlockMiner` overloads -/

/-- Embedding of `BasicPoa::getBlockMiner(const CBlockHeader&, CPubKey&)`. -/
def getBlockMinerPubKey (host : Host) (block : CBlockHeader) : Option CPubKey :=
  if host.IsNull block || block.vchBlockSig.length == 0 then none
  else host.RecoverCompact (host.GetHashWithoutSign block) block.vchBlockSig

/-- Embedding of `BasicPoa::getBlockMiner(const CBlockHeader&, CKeyID&)`. -/
def getBlockMinerHeader (host : Host) (c : MinerCache) (block : CBlockHeader) :
    Option CKeyID × MinerCache :=
  if host.IsNull block || block.vchBlockSig.length == 0 then (none, c)
  else
    let hash := host.GetHash block
    match c.readBlockMinerFromCache hash with
    | some keyid => (some keyid, c)
    | none =>
      match getBlockMinerPubKey host block with
      | none => (none, c)
      | some pubkey =>
        let keyid := host.GetID pubkey
        (some keyid, c.writeBlockMinerToCache hash keyid)

/-- Embedding of `BasicPoa::getBlockMiner(const CBlockIndex*, CKeyID&)`. -/
def getBlockMinerIndex (host : Host) (c : MinerCache) (p_index : Option CBlockIndex) :
    Option CKeyID × MinerCache :=
  match p_index with
  | none => (none, c)
  | some idx =>
    match idx.phashBlock with
    | none => (none, c)
    | some hash =>
      if idx.vchBlockSig.length == 0 then (none, c)
      else
        match c.readBlockMinerFromCache hash with
        | some keyid => (some keyid, c)
        | none =>
          match getBlockMinerPubKey host (host.GetBlockHeader idx) with
          | none => (none, c)
          | some pubkey =>
            let keyid := host.GetID pubkey
            (some keyid, c.writeBlockMinerToCache hash keyid)

/-! ## The scheduler -/

/-- The `while` loop of `getNextBlockMinerSet`: starting at `p_index_tmp`, as long as
`recent_block_num` is not zero and the entry has a parent, recover the entry's miner,
insert it into `recent_block_miner_set` and step to the parent. `none` is the early
`return false` on a failed recovery. -/
def recentLoop (host : Host) :
    Nat → CBlockIndex → MinerCache → List CKeyID → Option (List CKeyID) × MinerCache
  | 0, _, c, recent => (some recent, c)
  | _ + 1, CBlockIndex.genesis _ _ _, c, recent => (some recent, c)
  | n + 1, CBlockIndex.child h t s p, c, recent =>
    match getBlockMinerIndex host c (some (CBlockIndex.child h t s p)) with
    | (none, c1) => (none, c1)
    | (some keyid, c1) => recentLoop host n p c1 (recent.insert keyid)

/-- Standard `std::set_difference` of two sets: the elements of the first that are not in the
second, in the order of the first. -/
def set_difference (a b : List CKeyID) : List CKeyID :=
  a.filter (fun k => !(b.contains k))

/-- Embedding of `BasicPoa::getNextBlockMinerSet`. -/
def getNextBlockMinerSet (poa : BasicPoa) (host : Host) (c : MinerCache)
    (p_current_index : Option CBlockIndex) : Option (List CKeyID) × MinerCache :=
  match p_current_index with
  | none => (none, c)
  | some idx =>
    match idx.phashBlock with
    | none => (none, c)
    | some _ =>
      match idx.pprev with
      | none => (some poa._miner_set, c)
      | some _ =>
        let miner_num := poa._miner_list.length
        let recent_block_num := miner_num / 2
        match recentLoop host recent_block_num idx c [] with
        | (none, c1) => (none, c1)
        | (some recent, c1) => (some (set_difference poa._miner_set recent), c1)

/-- The `do ... while (it != current_it)` loop of `getNextBlockMinerList`, on positions of
`_miner_list`: advance `it` (wrapping from the end to the beginning), append the element
at `it` when it is in `next_block_miner_set`, and stop once `it` is back at `current_it`.
The first argument bounds the number of iterations; `none` means the bound was reached
before the loop ended. -/
def orderLoop (miner_list next_set : List CKeyID) (current_it : Nat) :
    Nat → Nat → List CKeyID → Option (List CKeyID)
  | 0, _, _ => none
  | fuel + 1, it, acc =>
    let it1 := if it + 1 = miner_list.length then 0 else it + 1
    let acc1 := if next_set.contains (miner_list.getD it1 0) then
      acc ++ [miner_list.getD it1 0] else acc
    if it1 = current_it then some acc1
    else orderLoop miner_list next_set current_it fuel it1 acc1

/-- Embedding of `BasicPoa::getNextBlockMinerList`. -/
def getNextBlockMinerList (poa : BasicPoa) (host : Host) (c : MinerCache)
    (p_current_index : Option CBlockIndex) : Option (List CKeyID) × MinerCache :=
  match p_current_index with
  | none => (none, c)
  | some idx =>
    match idx.phashBlock with
    | none => (none, c)
    | some hash =>
      match idx.pprev with
      | none => (some poa._miner_list, c)
      | some _ =>
        match c.readNextBlockMinerListFromCache hash with
        | some l => (some l, c)
        | none =>
          match getNextBlockMinerSet poa host c (some idx) with
          | (none, c1) => (none, c1)
          | (some next_block_miner_set, c1) =>
            match getBlockMinerIndex host c1 (some idx) with
            | (none, c2) => (none, c2)
            | (some current_miner, c2) =>
              let current_it := poa._miner_list.indexOf current_miner
              if current_it = poa._miner_list.length then (none, c2)
              else
                match orderLoop poa._miner_list next_block_miner_set current_it
                    poa._miner_list.length current_it [] with
                | none => (none, c2)
                | some l => (some l, c2.writeNextBlockMinerListToCache hash l)

/-- Embedding of `BasicPoa::canMineNextBlock(const CKeyID&, const CBlockIndex*, uint32_t&)`: `some t`
is `true` with `next_block_time = t`. -/
def canMineNextBlock (poa : BasicPoa) (host : Host) (c : MinerCache) (miner : CKeyID)
    (p_current_index : Option CBlockIndex) : Option Nat × MinerCache :=
  match p_current_index with
  | none => (none, c)
  | some idx =>
    if miner = 0 ∨ idx.phashBlock = none then (none, c)
    else
      match getNextBlockMinerList poa host c (some idx) with
      | (none, c1) => (none, c1)
      | (some next_block_miner_list, c1) =>
        if next_block_miner_list.contains miner then
          let miner_index := u32 (next_block_miner_list.indexOf miner)
          (some (u32add (u32add (u32 idx.nTime) poa._interval)
            (u32mul miner_index poa._timeout)), c1)
        else (none, c1)

/-- Embedding of `BasicPoa::canMineNextBlock(const CBlockIndex*, uint32_t&)` for the local miner
`_miner`; `now` is the value returned by `GetAdjustedTime()` (an `int64_t`). -/
def canMineNextBlockSelf (poa : BasicPoa) (host : Host) (c : MinerCache) (now : Int)
    (p_current_index : Option CBlockIndex) : Option Nat × MinerCache :=
  match p_current_index with
  | none => (none, c)
  | some idx =>
    if idx.phashBlock = none then (none, c)
    else
      match canMineNextBlock poa host c poa._miner (some idx) with
      | (none, c1) => (none, c1)
      | (some next_block_time, c1) =>
        let current_time := (now % 2 ^ 32).toNat
        if next_block_time < current_time then (some current_time, c1)
        else (some next_block_time, c1)

/-! ## The validator -/

/-- Embedding of `BasicPoa::checkBlock`. -/
def checkBlock (poa : BasicPoa) (host : Host) (c : MinerCache) (block : CBlockHeader) :
    Bool × MinerCache :=
  if host.IsNull block then (false, c)
  else
    let hash := host.GetHash block
    if hash = host.hashGenesisBlock then (true, c)
    else
      match host.mapBlockIndex block.hashPrevBlock with
      | none => (false, c)
      | some prev =>
        match getBlockMinerHeader host c block with
        | (none, c1) => (false, c1)
        | (some miner, c1) =>
          match canMineNextBlock poa host c1 miner (some prev) with
          | (none, c2) => (false, c2)
          | (some assigned_block_time, c2) =>
            if block.nTime < assigned_block_time then (false, c2) else (true, c2)

/-! ## Reference notions used to state the properties -/

/-- The recovered producer of an index entry: `getBlockMiner` on the entry with no cache
entry present. -/
def producerOf (host : Host) (b : CBlockIndex) : Option CKeyID :=
  (getBlockMinerIndex host MinerCache.empty (some b)).1

/-- The recovered producer of a header: `getBlockMiner` on the header with no cache entry
present. -/
def headerProducer (host : Host) (block : CBlockHeader) : Option CKeyID :=
  (getBlockMinerHeader host MinerCache.empty block).1

/-- The blocks reached by walking back from an entry at most `w` blocks, the entry itself
included, stopping before the genesis entry. -/
def recentBlocks : Nat → CBlockIndex → List CBlockIndex
  | 0, _ => []
  | _ + 1, CBlockIndex.genesis _ _ _ => []
  | w + 1, CBlockIndex.child h t s p => CBlockIndex.child h t s p :: recentBlocks w p

/-- The roster invariant established at start-up: `_miner_list` has no duplicates and
`_miner_set` holds exactly its elements. -/
def RosterInv (poa : BasicPoa) : Prop :=
  poa._miner_list.Nodup ∧ ∀ k, k ∈ poa._miner_set ↔ k ∈ poa._miner_list

/-- No two entries of the chain below `T` (`T` included) carry the same block hash. -/
def HashesDistinct (T : CBlockIndex) : Prop :=
  T.chain.Pairwise (fun a b => a.phashBlock ≠ b.phashBlock ∨ a.phashBlock = none)

/-- The caches agree with the uncached computation on the chain below `T`: a cached
producer of a block hash is the recovered producer of the entry with that hash, and a
cached list for the hash of a non-genesis entry is the list computed for that entry
with both caches empty. -/
def CacheSound (poa : BasicPoa) (host : Host) (c : MinerCache) (T : CBlockIndex) : Prop :=
  ∀ b ∈ T.chain, ∀ h, b.phashBlock = some h →
    (∀ k, c.block_miner h = some k → producerOf host b = some k) ∧
    (∀ l, c.next_miners h = some l → b.pprev ≠ none →
      (getNextBlockMinerList poa host MinerCache.empty (some b)).1 = some l)

/-- The window computation without caches: the loop of `getNextBlockMinerSet` with
`producerOf` in place of the cached recovery. -/
def recentSpec (host : Host) : Nat → CBlockIndex → List CKeyID → Option (List CKeyID)
  | 0, _, recent => some recent
  | _ + 1, CBlockIndex.genesis _ _ _, recent => some recent
  | n + 1, CBlockIndex.child h t s p, recent =>
    match producerOf host (CBlockIndex.child h t s p) with
    | none => none
    | some keyid => recentSpec host n p (recent.insert keyid)

/-- The list `getNextBlockMinerList` computes on a cache miss, written without caches:
the roster rotated to start right after the tip's producer, filtered to the roster
members that are not producers of the recent window. -/
def nextMinersSpec (poa : BasicPoa) (host : Host) (T : CBlockIndex) :
    Option (List CKeyID) :=
  match T.phashBlock with
  | none => none
  | some _ =>
    match T.pprev with
    | none => some poa._miner_list
    | some _ =>
      match recentSpec host (poa._miner_list.length / 2) T [] with
      | none => none
      | some recent =>
        match producerOf host T with
        | none => none
        | some current_miner =>
          if poa._miner_list.indexOf current_miner = poa._miner_list.length then none
          else
            some ((poa._miner_list.rotate (poa._miner_list.indexOf current_miner + 1)).filter
              (fun k => (set_difference poa._miner_set recent).contains k))

/-- The eligible set `E` of a tip: the roster set minus the recovered producers of the
blocks of the recent window (`w = n / 2` blocks walking back from the tip). -/
def eligibleSet (poa : BasicPoa) (host : Host) (T : CBlockIndex) : List CKeyID :=
  set_difference poa._miner_set
    ((recentBlocks (poa._miner_list.length / 2) T).filterMap (producerOf host))

/-- The roster walked circularly: the `len` elements `L[(i+1) mod n]`, `L[(i+2) mod n]`,
..., `L[(i+len) mod n]`. With `len = n - 1` the walk stops before position `i`; with
`len = n` it ends on position `i`. -/
def circularFrom (L : List CKeyID) (i len : Nat) : List CKeyID :=
  (List.range len).map (fun s => L.getD ((i + 1 + s) % L.length) 0)

/-- The 32-bit value `canMineNextBlock` assigns to the miner at position `j` of the list
of the tip with timestamp `nTime`. -/
def assignedTime (poa : BasicPoa) (nTime j : Nat) : Nat :=
  u32add (u32add (u32 nTime) poa._interval) (u32mul (u32 j) poa._timeout)

/-- Every non-genesis entry of the chain below `T` (`T` included) is the index entry of a
header that `checkBlock` accepted against its parent: the entry's hash is the hash of its
header, which is not the genesis hash, the block map resolves the header's
`hashPrevBlock` to the entry's parent, and `checkBlock` returned true from caches that
agree with signature recovery on the chain. -/
def AcceptedChain (poa : BasicPoa) (host : Host) : CBlockIndex → Prop
  | CBlockIndex.genesis _ _ _ => True
  | CBlockIndex.child h t s P =>
    AcceptedChain poa host P ∧
      h = some (host.GetHash (host.GetBlockHeader (CBlockIndex.child h t s P))) ∧
      host.GetHash (host.GetBlockHeader (CBlockIndex.child h t s P)) ≠
        host.hashGenesisBlock ∧
      host.mapBlockIndex (host.GetBlockHeader (CBlockIndex.child h t s P)).hashPrevBlock =
        some P ∧
      ∃ c, CacheSound poa host c (CBlockIndex.child h t s P) ∧
        (checkBlock poa host c (host.GetBlockHeader (CBlockIndex.child h t s P))).1 = true

/-! ## Scenario of the specification: roster `[A, B, C, D]`, interval 10, timeout 3 -/

namespace Scenario

/-- Authority `A`. -/
def A : CKeyID := 1
/-- Authority `B`. -/
def B : CKeyID := 2
/-- Authority `C`. -/
def C : CKeyID := 3
/-- Authority `D`. -/
def D : CKeyID := 4

/-- The genesis entry, with timestamp 1000. -/
def genesis : CBlockIndex := CBlockIndex.genesis (some 100) 1000 []
/-- Block 1, produced by `A` at 1010. -/
def blockA : CBlockIndex := CBlockIndex.child (some 101) 1010 [A] genesis
/-- Block 2, produced by `B` at 1023. -/
def blockB : CBlockIndex := CBlockIndex.child (some 102) 1023 [B] blockA
/-- Block 3, produced by `C` at 1036. -/
def blockC : CBlockIndex := CBlockIndex.child (some 103) 1036 [C] blockB

/-- A host for the scenario: a signature is the one-element list holding its signer, a
header carries its own hash in `payload`, and the block map knows the four entries. -/
def host : Host where
  IsNull := fun _ => false
  GetHash := fun b => b.payload
  GetHashWithoutSign := fun b => b.payload
  RecoverCompact := fun _ sig => sig.head?
  GetID := fun pubkey => pubkey
  GetBlockHeader := fun idx =>
    ⟨(idx.pprev.bind CBlockIndex.phashBlock).getD 0, idx.nTime, idx.vchBlockSig,
      idx.phashBlock.getD 0⟩
  hashGenesisBlock := 100
  mapBlockIndex := fun h =>
    if h = 100 then some genesis else if h = 101 then some blockA
    else if h = 102 then some blockB else if h = 103 then some blockC else none

/-- The engine of the scenario: roster `[A, B, C, D]`, local miner `D`, interval 10,
timeout 3. -/
def poa : BasicPoa := ⟨[A, B, C, D], [A, B, C, D], D, 10, 3⟩

end Scenario

/-- A one-authority engine over the scenario's host: roster `[A]`. -/
def Scenario.solo : BasicPoa := ⟨[Scenario.A], [Scenario.A], Scenario.A, 10, 3⟩

/-- A two-authority engine over the scenario's host: roster `[A, B]`. -/
def Scenario.pair : BasicPoa :=
  ⟨[Scenario.A, Scenario.B], [Scenario.A, Scenario.B], Scenario.B, 10, 3⟩

/-- The scenario's engine with the largest interval a `uint32_t` holds. -/
def Scenario.wide : BasicPoa :=
  ⟨[Scenario.A, Scenario.B, Scenario.C, Scenario.D],
    [Scenario.A, Scenario.B, Scenario.C, Scenario.D], Scenario.D, 4294967295, 3⟩

/-- A header signed by `D` on top of block `C`, stamped 1035. -/
def Scenario.headerD1035 : CBlockHeader := ⟨103, 1035, [Scenario.D], 104⟩
/-- A header signed by `D` on top of block `C`, stamped 1045. -/
def Scenario.headerD1045 : CBlockHeader := ⟨103, 1045, [Scenario.D], 104⟩
/-- A header signed by `D` on top of block `C`, stamped 1046. -/
def Scenario.headerD1046 : CBlockHeader := ⟨103, 1046, [Scenario.D], 104⟩

/-- The caches left by one call of `getNextBlockMinerList` on the scenario's tip `C`,
starting from empty caches. -/
def Scenario.warmCache : MinerCache :=
  (getNextBlockMinerList Scenario.poa Scenario.host MinerCache.empty
    (some Scenario.blockC)).2

/-- An index entry on top of block `C` whose signature is empty, so that the recovery
of its producer fails. -/
def Scenario.unsigned : CBlockIndex := CBlockIndex.child (some 104) 1046 [] Scenario.blockC

/-- Recovery from a block's index entry agrees with recovery from its header, on every
non-genesis entry of the chain below `T` (`T` included). -/
def IndexAgrees (host : Host) (T : CBlockIndex) : Prop :=
  ∀ b ∈ T.chain, b.pprev ≠ none →
    producerOf host b = headerProducer host (host.GetBlockHeader b)

/-! ## Start-up: `initParams` -/

/-- The four arguments `initParams` reads through `gArgs.GetArg`, each with the default
value `""` when the argument is absent. -/
structure PoaArgs where
  poa_miner_list : String
  poa_miner : String
  poa_interval : String
  poa_timeout : String

/-- The host functions used by `initParams` whose code lives elsewhere. -/
structure ArgHost where
  /-- Host method `CBitcoinAddress(str).GetKeyID(keyID)` (`none` when it returns false). -/
  GetKeyID : String → Option CKeyID
  /-- Host function `ParseUInt32(str, &out)` (`none` when it returns false). -/
  ParseUInt32 : String → Option Nat

/-- The tokens of `boost::split` with the separator set `is_any_of(",")`, on the
characters of the input: the second argument is the token being read. -/
def splitComma : List Char → List Char → List (List Char)
  | [], cur => [cur]
  | ch :: rest, cur =>
    if ch = ',' then cur :: splitComma rest [] else splitComma rest (cur ++ [ch])

/-- The call `boost::split(vecMinerList, minerListArg, boost::is_any_of(","))`. -/
def boost_split (s : String) : List String :=
  (splitComma s.data []).map String.mk

/-- The `for` loop of `initParams` over the split addresses, on the members `_miner_list`
and `_miner_set`: `false` is the early `return false` (wrong address or duplicate miner),
with the members as they are at that point. -/
def minerListLoop (GetKeyID : String → Option CKeyID) :
    List String → List CKeyID → List CKeyID → Bool × List CKeyID × List CKeyID
  | [], miner_list, miner_set => (true, miner_list, miner_set)
  | strAddress :: rest, miner_list, miner_set =>
    match GetKeyID strAddress with
    | none => (false, miner_list, miner_set)
    | some keyID =>
      if miner_set.contains keyID then (false, miner_list, miner_set)
      else minerListLoop GetKeyID rest (miner_list ++ [keyID]) (miner_set.insert keyID)

/-- Embedding of `BasicPoa::initParams`: the returned flag and the members it leaves. The
reward script and the log lines are left out. -/
def initParams (ah : ArgHost) (args : PoaArgs) (poa : BasicPoa) : Bool × BasicPoa :=
  if args.poa_miner_list.length = 0 then (false, poa)
  else
    let vecMinerList := boost_split args.poa_miner_list
    match minerListLoop ah.GetKeyID vecMinerList [] [] with
    | (false, miner_list, miner_set) =>
      (false, ⟨miner_list, miner_set, poa._miner, poa._interval, poa._timeout⟩)
    | (true, miner_list, miner_set) =>
      if miner_list.length = 0 then
        (false, ⟨miner_list, miner_set, poa._miner, poa._interval, poa._timeout⟩)
      else
        let miner :=
          if args.poa_miner.length ≠ 0 then
            match ah.GetKeyID args.poa_miner with
            | some keyid => if miner_set.contains keyid then keyid else poa._miner
            | none => poa._miner
          else poa._miner
        let interval :=
          match ah.ParseUInt32 args.poa_interval with
          | some n => n
          | none => 10
        let timeout :=
          match ah.ParseUInt32 args.poa_timeout with
          | some n => n
          | none => 3
        (true, ⟨miner_list, miner_set, miner, interval, timeout⟩)

/-- Decimal digits read from the left into an accumulator; `none` on any other
character. -/
def parseDigits : List Char → Nat → Option Nat
  | [], acc => some acc
  | ch :: rest, acc =>
    if ch.isDigit then parseDigits rest (acc * 10 + (ch.toNat - 48)) else none

/-- The argument host of the scenario: the addresses `"A"`, `"B"`, `"C"`, `"D"` decode to
the four authorities and `"X"` to a key outside the roster; an unsigned 32-bit integer
is a non-empty string of decimal digits whose value is below `2^32`. -/
def Scenario.argHost : ArgHost where
  GetKeyID := fun s =>
    if s = "A" then some Scenario.A else if s = "B" then some Scenario.B
    else if s = "C" then some Scenario.C else if s = "D" then some Scenario.D
    else if s = "X" then some 9 else none
  ParseUInt32 := fun s =>
    if s.data = [] then none
    else
      match parseDigits s.data 0 with
      | some n => if n < 2 ^ 32 then some n else none
      | none => none

/-- The engine before `initParams`: every member empty or zero. -/
def Scenario.fresh : BasicPoa := ⟨[], [], 0, 0, 0⟩

/-! ## Block production: `sign`, `createNextBlock` and the miner loop -/

/-- A `CBlock` as far as `poa.cpp` uses it: the header part (the transactions are never
read there). -/
abbrev CBlock := CBlockHeader

/-- The host functions used to build and submit a block whose code lives elsewhere. -/
structure BuildHost where
  /-- Host call `_block_assembler.CreateNewBlock(_reward_script, true, false, &nTotalFees,
  next_block_time, 0)`: the block of the returned template, `none` when the returned
  template pointer is null. -/
  CreateNewBlock : Nat → Option CBlock
  /-- Host call `BlockMerkleRoot(*pblock)` assigned to `hashMerkleRoot`: the block with
  its merkle root set. -/
  SetMerkleRoot : CBlock → CBlock
  /-- Host call `_miner_key.SignCompact(hash, vchBlockSig)` (`none` when it fails). -/
  SignCompact : uint256 → Option (List Nat)
  /-- Host call `ProcessNewBlock(Params(), pblock, true, &fNewBlock)`. -/
  ProcessNewBlock : CBlock → Bool

/-- Embedding of `BasicPoa::sign`: the signed block, `none` for `false`. -/
def sign (host : Host) (bh : BuildHost) (pblock : Option CBlock) : Option CBlock :=
  match pblock with
  | none => none
  | some b =>
    if host.IsNull b then none
    else
      match bh.SignCompact (host.GetHashWithoutSign b) with
      | none => none
      | some sig => some ⟨b.hashPrevBlock, b.nTime, sig, b.payload⟩

/-- How a call of `createNextBlock` ends: it returns a flag together with `pblock`, or it
evaluates `pblocktemplate->block` on a null template pointer, which is undefined
behaviour. -/
inductive CreateOutcome where
  | nullDereference
  | returned (ok : Bool) (pblock : Option CBlock)
deriving DecidableEq

/-- Embedding of `BasicPoa::createNextBlock`. The shared pointer made by
`std::make_shared` is never null, so the `if (!pblock)` branch is kept but cannot be
taken. -/
def createNextBlock (host : Host) (bh : BuildHost) (next_block_time : Nat) :
    CreateOutcome :=
  match bh.CreateNewBlock next_block_time with
  | none => CreateOutcome.nullDereference
  | some block =>
    let pblock : Option CBlock := some block
    match pblock with
    | none => CreateOutcome.returned false none
    | some b =>
      let b1 := bh.SetMerkleRoot b
      match sign host bh (some b1) with
      | none => CreateOutcome.returned false (some b1)
      | some signed => CreateOutcome.returned true (some signed)

/-- The state of the miner loop between two passes of `while (true)`, with the values the
host returns to the coming reads: `tips` for `chainActive.Tip()` and `clocks` for
`GetAdjustedTime()`, in the order of the reads. A null pointer is `none`; two pointers are
equal when the entries are. -/
structure LoopState where
  p_last_index : Option CBlockIndex
  cache : MinerCache
  tips : List (Option CBlockIndex)
  clocks : List Int

/-- What one pass of the body of `while (true)` in `ThreadPoaMiner` did. `submitted` is
the only case in which `ProcessNewBlock` is called; `readsExhausted` means the lists of
read values ended before the pass did. -/
inductive IterationResult where
  | tipUnchanged
  | notEligible
  | staleAfterCheck
  | createFailed
  | nullDereference
  | staleAfterCreate
  | staleAfterWait
  | submitted (pblock : CBlock) (ok : Bool)
  | readsExhausted
deriving DecidableEq

/-- The two-argument `canMineNextBlock` with its clock read taken from the list of values
`GetAdjustedTime()` returns: the read happens only after the three-argument call
succeeded. `none` means the list ended. -/
def canMineNextBlockRead (poa : BasicPoa) (host : Host) (c : MinerCache)
    (clocks : List Int) (p_current_index : Option CBlockIndex) :
    Option (Option Nat × MinerCache × List Int) :=
  match p_current_index with
  | none => some (none, c, clocks)
  | some idx =>
    if idx.phashBlock = none then some (none, c, clocks)
    else
      match canMineNextBlock poa host c poa._miner (some idx) with
      | (none, c1) => some (none, c1, clocks)
      | (some _, _) =>
        match clocks with
        | [] => none
        | now :: rest =>
          some ((canMineNextBlockSelf poa host c now (some idx)).1,
            (canMineNextBlockSelf poa host c now (some idx)).2, rest)

/-- The wait loop `while (GetAdjustedTime() < next_block_time &&
chainActive.Tip() == p_current_index)`: the tip is read only when the clock read is
earlier than `next_block_time`. The result is what is left of the two lists when the
loop ends, `none` when a list ended first. -/
def waitLoop (next_block_time : Nat) (p_current_index : Option CBlockIndex) :
    List Int → List (Option CBlockIndex) →
      Option (List Int × List (Option CBlockIndex))
  | [], _ => none
  | now :: clocks, tips =>
    if now < (next_block_time : Int) then
      match tips with
      | [] => none
      | tip :: rest =>
        if tip = p_current_index then waitLoop next_block_time p_current_index clocks rest
        else some (clocks, rest)
    else some (clocks, tips)

/-- One pass of the body of `while (true)` in `ThreadPoaMiner`. -/
def minerIteration (poa : BasicPoa) (host : Host) (bh : BuildHost) (st : LoopState) :
    IterationResult × LoopState :=
  match st.tips with
  | [] => (IterationResult.readsExhausted, st)
  | p_current_index :: tips1 =>
    if st.p_last_index = p_current_index then
      (IterationResult.tipUnchanged, ⟨st.p_last_index, st.cache, tips1, st.clocks⟩)
    else
      match canMineNextBlockRead poa host st.cache st.clocks p_current_index with
      | none =>
        (IterationResult.readsExhausted, ⟨p_current_index, st.cache, tips1, []⟩)
      | some (none, c1, clocks1) =>
        (IterationResult.notEligible, ⟨p_current_index, c1, tips1, clocks1⟩)
      | some (some next_block_time, c1, clocks1) =>
        match tips1 with
        | [] => (IterationResult.readsExhausted, ⟨p_current_index, c1, [], clocks1⟩)
        | tip2 :: tips2 =>
          if p_current_index ≠ tip2 then
            (IterationResult.staleAfterCheck, ⟨p_current_index, c1, tips2, clocks1⟩)
          else
            match createNextBlock host bh next_block_time with
            | CreateOutcome.nullDereference =>
              (IterationResult.nullDereference, ⟨p_current_index, c1, tips2, clocks1⟩)
            | CreateOutcome.returned false _ =>
              (IterationResult.createFailed, ⟨p_current_index, c1, tips2, clocks1⟩)
            | CreateOutcome.returned true none =>
              (IterationResult.createFailed, ⟨p_current_index, c1, tips2, clocks1⟩)
            | CreateOutcome.returned true (some pblock) =>
              match tips2 with
              | [] => (IterationResult.readsExhausted, ⟨p_current_index, c1, [], clocks1⟩)
              | tip3 :: tips3 =>
                if p_current_index ≠ tip3 then
                  (IterationResult.staleAfterCreate,
                    ⟨p_current_index, c1, tips3, clocks1⟩)
                else
                  match waitLoop next_block_time p_current_index clocks1 tips3 with
                  | none =>
                    (IterationResult.readsExhausted, ⟨p_current_index, c1, [], []⟩)
                  | some (clocks2, tips4) =>
                    match tips4 with
                    | [] =>
                      (IterationResult.readsExhausted,
                        ⟨p_current_index, c1, [], clocks2⟩)
                    | tip5 :: tips5 =>
                      if tip5 ≠ p_current_index then
                        (IterationResult.staleAfterWait,
                          ⟨p_current_index, c1, tips5, clocks2⟩)
                      else
                        (IterationResult.submitted pblock (bh.ProcessNewBlock pblock),
                          ⟨p_current_index, c1, tips5, clocks2⟩)

/-- A build host for the scenario: the assembler returns a block on top of `C` stamped
with the requested time, signing yields the signature of `D`, and `ProcessNewBlock`
accepts. -/
def Scenario.buildHost : BuildHost where
  CreateNewBlock := fun t => some ⟨103, t, [], 104⟩
  SetMerkleRoot := fun b => b
  SignCompact := fun _ => some [Scenario.D]
  ProcessNewBlock := fun _ => true

/-- A build host whose assembler returns no template. -/
def Scenario.noTemplate : BuildHost where
  CreateNewBlock := fun _ => none
  SetMerkleRoot := fun b => b
  SignCompact := fun _ => some [Scenario.D]
  ProcessNewBlock := fun _ => true

/-- A pass of the miner loop on tip `C` in which the tip read inside the wait returns
block `B` and the read after the wait returns `C` again. -/
def Scenario.flapping : LoopState :=
  ⟨none, MinerCache.empty,
    [some Scenario.blockC, some Scenario.blockC, some Scenario.blockC,
      some Scenario.blockB, some Scenario.blockC],
    [1040, 1041]⟩

/-- A pass of the miner loop on tip `C` in which every tip read returns `C`. -/
def Scenario.steady : LoopState :=
  ⟨none, MinerCache.empty,
    [some Scenario.blockC, some Scenario.blockC, some Scenario.blockC,
      some Scenario.blockC, some Scenario.blockC],
    [1040, 1041, 1046]⟩

/-! ## Basic facts on chains and caches -/

theorem CBlockIndex.self_mem_chain (T : CBlockIndex) : T ∈ T.chain := by
  cases T <;> simp [CBlockIndex.chain]

theorem CBlockIndex.chain_child (h : Option uint256) (t : Nat) (s : List Nat)
    (p : CBlockIndex) :
    (CBlockIndex.child h t s p).chain = CBlockIndex.child h t s p :: p.chain := rfl

theorem CBlockIndex.chain_subset_of_mem {T b : CBlockIndex} (hb : b ∈ T.chain) :
    ∀ x ∈ b.chain, x ∈ T.chain := by
  induction T with
  | genesis h t s =>
    simp only [CBlockIndex.chain, List.mem_singleton] at hb
    subst hb; intro x hx; exact hx
  | child h t s p ih =>
    rw [CBlockIndex.chain_child, List.mem_cons] at hb
    rcases hb with rfl | hb
    · intro x hx; exact hx
    · intro x hx
      rw [CBlockIndex.chain_child]
      exact List.mem_cons_of_mem _ (ih hb x hx)

theorem producerOf_eq (host : Host) (b : CBlockIndex) :
    producerOf host b =
      match b.phashBlock with
      | none => none
      | some _ =>
        if b.vchBlockSig.length == 0 then none
        else (getBlockMinerPubKey host (host.GetBlockHeader b)).map host.GetID := by
  unfold producerOf getBlockMinerIndex
  simp only [MinerCache.readBlockMinerFromCache, MinerCache.empty]
  cases b.phashBlock with
  | none => rfl
  | some hash =>
    simp only
    by_cases hs : (b.vchBlockSig.length == 0) = true
    · simp only [hs, if_true]
    · simp only [hs, if_false]
      cases getBlockMinerPubKey host (host.GetBlockHeader b) <;> rfl

theorem hash_eq_of_distinct {T a b : CBlockIndex} (hd : HashesDistinct T)
    (ha : a ∈ T.chain) (hb : b ∈ T.chain) {h : uint256}
    (hah : a.phashBlock = some h) (hbh : b.phashBlock = some h) : a = b := by
  by_contra hne
  have hsymm : Symmetric (fun a b : CBlockIndex =>
      a.phashBlock ≠ b.phashBlock ∨ a.phashBlock = none) := by
    intro x y hxy
    rcases hxy with hxy | hxy
    · exact Or.inl (fun e => hxy e.symm)
    · by_cases e : y.phashBlock = x.phashBlock
      · exact Or.inr (e.trans hxy)
      · exact Or.inl e
  have := List.Pairwise.forall hsymm hd ha hb hne
  rcases this with h1 | h1
  · exact h1 (hah.trans hbh.symm)
  · rw [hah] at h1; exact Option.noConfusion h1

theorem hashesDistinct_of_mem {T b : CBlockIndex} (hd : HashesDistinct T)
    (hb : b ∈ T.chain) : HashesDistinct b := by
  induction T with
  | genesis h t s =>
    simp only [CBlockIndex.chain, List.mem_singleton] at hb
    subst hb; exact hd
  | child h t s p ih =>
    rw [CBlockIndex.chain_child, List.mem_cons] at hb
    rcases hb with rfl | hb
    · exact hd
    · unfold HashesDistinct at hd
      rw [CBlockIndex.chain_child, List.pairwise_cons] at hd
      exact ih hd.2 hb

theorem cacheSound_of_mem {poa : BasicPoa} {host : Host} {c : MinerCache}
    {T b : CBlockIndex} (hs : CacheSound poa host c T) (hb : b ∈ T.chain) :
    CacheSound poa host c b :=
  fun x hx => hs x (CBlockIndex.chain_subset_of_mem hb x hx)

theorem cacheSound_empty (poa : BasicPoa) (host : Host) (T : CBlockIndex) :
    CacheSound poa host MinerCache.empty T := by
  intro b _ h _
  constructor
  · intro k hk; simp [MinerCache.empty] at hk
  · intro l hl; simp [MinerCache.empty] at hl

theorem cacheSound_writeBlockMiner {poa : BasicPoa} {host : Host} {c : MinerCache}
    {T b : CBlockIndex} {h : uint256} {k : CKeyID}
    (hs : CacheSound poa host c T) (hd : HashesDistinct T) (hb : b ∈ T.chain)
    (hh : b.phashBlock = some h) (hk : producerOf host b = some k) :
    CacheSound poa host (c.writeBlockMinerToCache h k) T := by
  intro x hx h1 hx1
  refine ⟨?_, (hs x hx h1 hx1).2⟩
  intro k1 hk1
  simp only [MinerCache.writeBlockMinerToCache] at hk1
  by_cases e : h1 = h
  · subst e
    rw [if_pos rfl] at hk1
    have hxb : x = b := hash_eq_of_distinct hd hx hb hx1 hh
    rw [hxb, hk, ← hk1]
  · rw [if_neg e] at hk1
    exact (hs x hx h1 hx1).1 k1 hk1

theorem cacheSound_writeNext {poa : BasicPoa} {host : Host} {c : MinerCache}
    {T b : CBlockIndex} {h : uint256} {l : List CKeyID}
    (hs : CacheSound poa host c T) (hd : HashesDistinct T) (hb : b ∈ T.chain)
    (hh : b.phashBlock = some h)
    (hl : (getNextBlockMinerList poa host MinerCache.empty (some b)).1 = some l) :
    CacheSound poa host (c.writeNextBlockMinerListToCache h l) T := by
  intro x hx h1 hx1
  refine ⟨(hs x hx h1 hx1).1, ?_⟩
  intro l1 hl1 hne
  simp only [MinerCache.writeNextBlockMinerListToCache] at hl1
  by_cases e : h1 = h
  · subst e
    rw [if_pos rfl] at hl1
    have hxb : x = b := hash_eq_of_distinct hd hx hb hx1 hh
    rw [hxb, hl, ← hl1]
  · rw [if_neg e] at hl1
    exact (hs x hx h1 hx1).2 l1 hl1 hne

/-- Under sound caches the index overload of `getBlockMiner` returns the recovered
producer, and leaves sound caches behind. -/
theorem getBlockMinerIndex_sound {poa : BasicPoa} {host : Host} {c : MinerCache}
    {T b : CBlockIndex} (hs : CacheSound poa host c T) (hd : HashesDistinct T)
    (hb : b ∈ T.chain) :
    (getBlockMinerIndex host c (some b)).1 = producerOf host b ∧
      CacheSound poa host (getBlockMinerIndex host c (some b)).2 T := by
  have hp := producerOf_eq host b
  unfold getBlockMinerIndex
  cases hh : b.phashBlock with
  | none =>
    rw [hh] at hp
    simp only [hh]
    exact ⟨hp.symm, hs⟩
  | some hash =>
    rw [hh] at hp
    simp only [hh] at hp ⊢
    by_cases hsig : (b.vchBlockSig.length == 0) = true
    · rw [if_pos hsig] at hp ⊢
      exact ⟨hp.symm, hs⟩
    · rw [if_neg hsig] at hp ⊢
      cases hc : c.readBlockMinerFromCache hash with
      | some keyid =>
        simp only
        exact ⟨((hs b hb hash hh).1 keyid hc).symm, hs⟩
      | none =>
        simp only
        cases hr : getBlockMinerPubKey host (host.GetBlockHeader b) with
        | none =>
          rw [hr] at hp
          exact ⟨hp.symm, hs⟩
        | some pubkey =>
          rw [hr] at hp
          exact ⟨hp.symm, cacheSound_writeBlockMiner hs hd hb hh hp⟩

/-- Under sound caches the window loop of `getNextBlockMinerSet` computes `recentSpec`
and leaves sound caches behind. -/
theorem recentLoop_sound {poa : BasicPoa} {host : Host} {T : CBlockIndex}
    (hd : HashesDistinct T) :
    ∀ (n : Nat) (p : CBlockIndex) (c : MinerCache) (recent : List CKeyID),
      CacheSound poa host c T → p ∈ T.chain →
      (recentLoop host n p c recent).1 = recentSpec host n p recent ∧
        CacheSound poa host (recentLoop host n p c recent).2 T := by
  intro n
  induction n with
  | zero =>
    intro p c recent hs _
    cases p <;> exact ⟨rfl, hs⟩
  | succ n ih =>
    intro p c recent hs hp
    cases p with
    | genesis h t s => exact ⟨rfl, hs⟩
    | child h t s q =>
      have hq : q ∈ T.chain :=
        CBlockIndex.chain_subset_of_mem hp q
          (by rw [CBlockIndex.chain_child]
              exact List.mem_cons_of_mem _ (CBlockIndex.self_mem_chain q))
      have h1 := getBlockMinerIndex_sound hs hd hp
      simp only [recentLoop, recentSpec]
      cases hg : getBlockMinerIndex host c (some (CBlockIndex.child h t s q)) with
      | mk r c1 =>
        rw [hg] at h1
        simp only at h1
        rw [← h1.1]
        cases r with
        | none => exact ⟨rfl, h1.2⟩
        | some keyid => exact ih q c1 _ h1.2 hq

/-! ## The rotation loop -/

theorem filter_cons_append (p : CKeyID → Bool) (acc rest : List CKeyID) (x : CKeyID) :
    (if p x then acc ++ [x] else acc) ++ rest.filter p = acc ++ (x :: rest).filter p := by
  by_cases hx : p x = true
  · simp [hx, List.filter_cons]
  · simp [hx, List.filter_cons]

/-- The rotation loop between two positions with no wrap-around in between. -/
theorem orderLoop_upto (L E : List CKeyID) (cur : Nat) (hcur : cur < L.length) :
    ∀ (fuel it : Nat) (acc : List CKeyID), it < cur → cur - it ≤ fuel →
      orderLoop L E cur fuel it acc =
        some (acc ++ ((L.drop (it + 1)).take (cur - it)).filter (fun k => E.contains k)) := by
  intro fuel
  induction fuel with
  | zero => intro it acc h1 h2; omega
  | succ fuel ih =>
    intro it acc h1 h2
    have hlen : it + 1 < L.length := by omega
    have hne : ¬ (it + 1 = L.length) := by omega
    have hdrop : L.drop (it + 1) = L[it + 1] :: L.drop (it + 1 + 1) :=
      List.drop_eq_getElem_cons hlen
    have hget : L.getD (it + 1) 0 = L[it + 1] := List.getD_eq_getElem L 0 hlen
    have htake : cur - it = (cur - (it + 1)) + 1 := by omega
    unfold orderLoop
    simp only [if_neg hne, hget]
    rw [hdrop, htake, List.take_succ_cons, ← filter_cons_append]
    by_cases hc : it + 1 = cur
    · rw [if_pos hc]
      have : cur - (it + 1) = 0 := by omega
      rw [this]
      simp
    · rw [if_neg hc]
      exact ih (it + 1) _ (by omega) (by omega)

/-- The rotation loop from a position at or after `current_it`: it runs to the end of
the list, wraps around and stops at `current_it`. -/
theorem orderLoop_wrap (L E : List CKeyID) (cur : Nat) (hcur : cur < L.length) :
    ∀ (fuel it : Nat) (acc : List CKeyID), cur ≤ it → it < L.length →
      L.length - it + cur ≤ fuel →
      orderLoop L E cur fuel it acc =
        some (acc ++ ((L.drop (it + 1)).filter (fun k => E.contains k) ++
          (L.take (cur + 1)).filter (fun k => E.contains k))) := by
  intro fuel
  induction fuel with
  | zero => intro it acc h1 h2 h3; omega
  | succ fuel ih =>
    intro it acc h1 h2 h3
    unfold orderLoop
    by_cases hend : it + 1 = L.length
    · have h0 : 0 < L.length := by omega
      have hget : L.getD 0 0 = L[0] := List.getD_eq_getElem L 0 h0
      have hdrop : L.drop (it + 1) = [] := by
        rw [hend]; exact List.drop_length L
      have hL : L = L[0] :: L.drop 1 := by
        have := List.drop_eq_getElem_cons h0
        simpa using this
      simp only [if_pos hend, hget, hdrop, List.filter_nil, List.nil_append]
      by_cases hc : 0 = cur
      · rw [if_pos hc]
        have ht : L.take (cur + 1) = [L[0]] := by
          rw [← hc]
          conv_lhs => rw [hL]
          simp
        rw [ht, ← filter_cons_append]
        simp
      · rw [if_neg hc]
        rw [orderLoop_upto L E cur hcur fuel 0 _ (by omega) (by omega)]
        have ht : L.take (cur + 1) = L[0] :: (L.drop 1).take cur := by
          conv_lhs => rw [hL]
          rw [List.take_succ_cons]
        rw [ht, ← filter_cons_append]
        simp
    · have hlen : it + 1 < L.length := by omega
      have hdrop : L.drop (it + 1) = L[it + 1] :: L.drop (it + 1 + 1) :=
        List.drop_eq_getElem_cons hlen
      have hget : L.getD (it + 1) 0 = L[it + 1] := List.getD_eq_getElem L 0 hlen
      have hc : ¬ (it + 1 = cur) := by omega
      simp only [if_neg hend, hget, if_neg hc]
      rw [ih (it + 1) _ (by omega) hlen (by omega), hdrop]
      rw [← List.append_assoc, ← List.append_assoc, ← filter_cons_append]

/-- The rotation loop of `getNextBlockMinerList` terminates within `_miner_list.size()`
iterations and returns the roster rotated to start right after `current_it` (so that
`current_it` itself comes last), filtered to the eligible set. -/
theorem orderLoop_eq_rotate (L E : List CKeyID) (cur : Nat) (hcur : cur < L.length) :
    orderLoop L E cur L.length cur [] =
      some ((L.rotate (cur + 1)).filter (fun k => E.contains k)) := by
  rw [orderLoop_wrap L E cur hcur L.length cur [] (le_refl _) hcur (by omega)]
  rw [List.rotate_eq_drop_append_take (by omega), List.filter_append]
  simp

/-! ## The scheduler under sound caches -/

/-- Under sound caches `getNextBlockMinerSet` on a non-genesis entry with a hash returns
the roster set minus the window computed by `recentSpec`. -/
theorem getNextBlockMinerSet_sound {poa : BasicPoa} {host : Host} {c : MinerCache}
    {T : CBlockIndex} (hd : HashesDistinct T) (hs : CacheSound poa host c T)
    (h : uint256) (t : Nat) (s : List Nat) (p : CBlockIndex)
    (hp : CBlockIndex.child (some h) t s p ∈ T.chain) :
    (getNextBlockMinerSet poa host c (some (CBlockIndex.child (some h) t s p))).1 =
        (recentSpec host (poa._miner_list.length / 2)
          (CBlockIndex.child (some h) t s p) []).map (set_difference poa._miner_set) ∧
      CacheSound poa host
        (getNextBlockMinerSet poa host c (some (CBlockIndex.child (some h) t s p))).2 T := by
  have h1 := @recentLoop_sound poa host T hd (poa._miner_list.length / 2)
    (CBlockIndex.child (some h) t s p) c [] hs hp
  simp only [getNextBlockMinerSet, CBlockIndex.phashBlock, CBlockIndex.pprev]
  cases hg : recentLoop host (poa._miner_list.length / 2)
      (CBlockIndex.child (some h) t s p) c [] with
  | mk r c1 =>
    rw [hg] at h1
    simp only at h1
    rw [← h1.1]
    cases r with
    | none => exact ⟨rfl, h1.2⟩
    | some recent => exact ⟨rfl, h1.2⟩

/-- On a miss of the list cache, and with a sound producer cache, `getNextBlockMinerList`
returns `nextMinersSpec`; the cache it leaves is a sound cache, possibly extended by the
entry for the computed list. -/
theorem getNextBlockMinerList_miss {poa : BasicPoa} {host : Host} {c : MinerCache}
    {T : CBlockIndex} (hd : HashesDistinct T) (hs : CacheSound poa host c T)
    (b : CBlockIndex) (hb : b ∈ T.chain)
    (hmiss : ∀ h, b.phashBlock = some h → c.next_miners h = none) :
    (getNextBlockMinerList poa host c (some b)).1 = nextMinersSpec poa host b ∧
      ∃ c2, CacheSound poa host c2 T ∧
        ((getNextBlockMinerList poa host c (some b)).2 = c2 ∨
          ∃ h l, b.phashBlock = some h ∧ nextMinersSpec poa host b = some l ∧
            (getNextBlockMinerList poa host c (some b)).2 =
              c2.writeNextBlockMinerListToCache h l) := by
  cases b with
  | genesis h t s =>
    cases h with
    | none => exact ⟨rfl, c, hs, Or.inl rfl⟩
    | some hash => exact ⟨rfl, c, hs, Or.inl rfl⟩
  | child h t s p =>
    cases h with
    | none => exact ⟨rfl, c, hs, Or.inl rfl⟩
    | some hash =>
      have hm : c.next_miners hash = none := hmiss hash rfl
      have h1 := getNextBlockMinerSet_sound hd hs hash t s p hb
      simp only [getNextBlockMinerList, nextMinersSpec, CBlockIndex.phashBlock,
        CBlockIndex.pprev, MinerCache.readNextBlockMinerListFromCache, hm]
      cases hg : getNextBlockMinerSet poa host c
          (some (CBlockIndex.child (some hash) t s p)) with
      | mk r c1 =>
        rw [hg] at h1
        simp only at h1
        cases hr : recentSpec host (poa._miner_list.length / 2)
            (CBlockIndex.child (some hash) t s p) [] with
        | none =>
          rw [hr] at h1
          simp only [Option.map_none'] at h1
          rw [h1.1]
          exact ⟨rfl, c1, h1.2, Or.inl rfl⟩
        | some recent =>
          rw [hr] at h1
          simp only [Option.map_some'] at h1
          rw [h1.1]
          simp only
          have h2 := getBlockMinerIndex_sound h1.2 hd hb
          cases hg2 : getBlockMinerIndex host c1
              (some (CBlockIndex.child (some hash) t s p)) with
          | mk r2 c2 =>
            rw [hg2] at h2
            simp only at h2
            rw [← h2.1]
            cases r2 with
            | none => exact ⟨rfl, c2, h2.2, Or.inl rfl⟩
            | some current_miner =>
              simp only
              by_cases hi : poa._miner_list.indexOf current_miner = poa._miner_list.length
              · simp only [if_pos hi]
                exact ⟨trivial, c2, h2.2, Or.inl rfl⟩
              · have hlt : poa._miner_list.indexOf current_miner < poa._miner_list.length :=
                  lt_of_le_of_ne List.indexOf_le_length hi
                simp only [if_neg hi, orderLoop_eq_rotate _ _ _ hlt]
                exact ⟨trivial, c2, h2.2, Or.inr ⟨hash, _, rfl, rfl, rfl⟩⟩

/-- With both caches empty `getNextBlockMinerList` returns `nextMinersSpec`. -/
theorem getNextBlockMinerList_empty {poa : BasicPoa} {host : Host} {T : CBlockIndex}
    (hd : HashesDistinct T) :
    (getNextBlockMinerList poa host MinerCache.empty (some T)).1 =
      nextMinersSpec poa host T :=
  (getNextBlockMinerList_miss hd (cacheSound_empty poa host T) T
    (CBlockIndex.self_mem_chain T) (fun _ _ => rfl)).1

/-- Under sound caches `getNextBlockMinerList` returns `nextMinersSpec`, whether the list
cache hits or misses, and leaves sound caches behind. -/
theorem getNextBlockMinerList_sound {poa : BasicPoa} {host : Host} {c : MinerCache}
    {T : CBlockIndex} (hd : HashesDistinct T) (hs : CacheSound poa host c T)
    (b : CBlockIndex) (hb : b ∈ T.chain) :
    (getNextBlockMinerList poa host c (some b)).1 = nextMinersSpec poa host b ∧
      CacheSound poa host (getNextBlockMinerList poa host c (some b)).2 T := by
  by_cases hmiss : ∀ h, b.phashBlock = some h → c.next_miners h = none
  · obtain ⟨h1, c2, hs2, h2⟩ := getNextBlockMinerList_miss hd hs b hb hmiss
    refine ⟨h1, ?_⟩
    rcases h2 with h2 | ⟨h, l, hh, hl, h2⟩
    · rw [h2]; exact hs2
    · rw [h2]
      refine cacheSound_writeNext hs2 hd hb hh ?_
      rw [getNextBlockMinerList_empty (hashesDistinct_of_mem hd hb), hl]
  · push_neg at hmiss
    obtain ⟨h, hh, hne⟩ := hmiss
    obtain ⟨l, hl⟩ := Option.ne_none_iff_exists'.mp hne
    cases b with
    | genesis h0 t s =>
      simp only [CBlockIndex.phashBlock] at hh
      subst hh
      exact ⟨rfl, hs⟩
    | child h0 t s p =>
      simp only [CBlockIndex.phashBlock] at hh
      subst hh
      have hsp := (hs _ hb h rfl).2 l hl (by simp [CBlockIndex.pprev])
      rw [getNextBlockMinerList_empty (hashesDistinct_of_mem hd hb)] at hsp
      simp only [getNextBlockMinerList, CBlockIndex.phashBlock, CBlockIndex.pprev,
        MinerCache.readNextBlockMinerListFromCache, hl]
      exact ⟨hsp.symm, hs⟩

/-! ## The window and the eligible list -/

theorem recentSpec_some {host : Host} :
    ∀ (n : Nat) (p : CBlockIndex) (recent r : List CKeyID),
      recentSpec host n p recent = some r →
      (∀ b ∈ recentBlocks n p, ∃ k, producerOf host b = some k) ∧
        ∀ k, k ∈ r ↔ k ∈ recent ∨ ∃ b ∈ recentBlocks n p, producerOf host b = some k := by
  intro n
  induction n with
  | zero =>
    intro p recent r h
    cases p <;> simp only [recentSpec, Option.some.injEq] at h <;> subst h <;>
      simp [recentBlocks]
  | succ n ih =>
    intro p recent r h
    cases p with
    | genesis h0 t s =>
      simp only [recentSpec, Option.some.injEq] at h
      subst h
      simp [recentBlocks]
    | child h0 t s q =>
      simp only [recentSpec] at h
      cases hp : producerOf host (CBlockIndex.child h0 t s q) with
      | none => rw [hp] at h; exact Option.noConfusion h
      | some keyid =>
        rw [hp] at h
        simp only at h
        obtain ⟨ih1, ih2⟩ := ih q _ r h
        constructor
        · intro b hb
          simp only [recentBlocks, List.mem_cons] at hb
          rcases hb with rfl | hb
          · exact ⟨keyid, hp⟩
          · exact ih1 b hb
        · intro k
          rw [ih2 k]
          simp only [recentBlocks, List.mem_cons, List.mem_insert_iff, exists_eq_or_imp, hp,
            Option.some.injEq]
          constructor
          · rintro ((rfl | hk) | hk)
            · exact Or.inr (Or.inl rfl)
            · exact Or.inl hk
            · exact Or.inr (Or.inr hk)
          · rintro (hk | rfl | hk)
            · exact Or.inl (Or.inr hk)
            · exact Or.inl (Or.inl rfl)
            · exact Or.inr hk

theorem recentSpec_of_producers {host : Host} :
    ∀ (n : Nat) (p : CBlockIndex) (recent : List CKeyID),
      (∀ b ∈ recentBlocks n p, ∃ k, producerOf host b = some k) →
      ∃ r, recentSpec host n p recent = some r := by
  intro n
  induction n with
  | zero => intro p recent _; cases p <;> exact ⟨recent, rfl⟩
  | succ n ih =>
    intro p recent h
    cases p with
    | genesis h0 t s => exact ⟨recent, rfl⟩
    | child h0 t s q =>
      obtain ⟨k, hk⟩ := h (CBlockIndex.child h0 t s q) (by simp [recentBlocks])
      simp only [recentSpec, hk]
      exact ih q _ (fun b hb => h b (by simp [recentBlocks, hb]))

theorem mem_set_difference (a b : List CKeyID) (k : CKeyID) :
    (set_difference a b).contains k = true ↔ k ∈ a ∧ k ∉ b := by
  simp [set_difference, List.mem_filter]

theorem mem_eligibleSet (poa : BasicPoa) (host : Host) (T : CBlockIndex) (k : CKeyID) :
    (eligibleSet poa host T).contains k = true ↔
      k ∈ poa._miner_set ∧
        ¬ ∃ b ∈ recentBlocks (poa._miner_list.length / 2) T, producerOf host b = some k := by
  rw [eligibleSet, mem_set_difference, List.mem_filterMap]

/-- Shape of `nextMinersSpec` on a non-genesis entry: the tip's producer is recovered and
found in the roster, and the list is the roster rotated past that producer, filtered to
the eligible set. -/
theorem nextMinersSpec_child {poa : BasicPoa} {host : Host} {T : CBlockIndex}
    {l : List CKeyID} (hT : T.pprev ≠ none) (h : nextMinersSpec poa host T = some l) :
    ∃ p, producerOf host T = some p ∧
      poa._miner_list.indexOf p < poa._miner_list.length ∧
      (∀ b ∈ recentBlocks (poa._miner_list.length / 2) T, ∃ k, producerOf host b = some k) ∧
      l = (poa._miner_list.rotate (poa._miner_list.indexOf p + 1)).filter
        (fun k => (eligibleSet poa host T).contains k) := by
  unfold nextMinersSpec at h
  cases hh : T.phashBlock with
  | none => rw [hh] at h; exact Option.noConfusion h
  | some hash =>
    rw [hh] at h
    cases hpp : T.pprev with
    | none => exact absurd hpp hT
    | some q =>
      rw [hpp] at h
      simp only at h
      cases hr : recentSpec host (poa._miner_list.length / 2) T [] with
      | none => rw [hr] at h; exact Option.noConfusion h
      | some recent =>
        rw [hr] at h
        simp only at h
        cases hp : producerOf host T with
        | none => rw [hp] at h; exact Option.noConfusion h
        | some p =>
          rw [hp] at h
          simp only at h
          obtain ⟨hr1, hr2⟩ := recentSpec_some _ _ _ _ hr
          by_cases hi : poa._miner_list.indexOf p = poa._miner_list.length
          · rw [if_pos hi] at h; exact Option.noConfusion h
          · rw [if_neg hi, Option.some.injEq] at h
            refine ⟨p, rfl, lt_of_le_of_ne List.indexOf_le_length hi, hr1, ?_⟩
            rw [← h]
            apply List.filter_congr
            intro k _
            rw [Bool.eq_iff_iff, mem_set_difference, mem_eligibleSet, hr2 k]
            simp

/-- Converse of `nextMinersSpec_child`: when the tip has a hash, its producer is in the
roster and every block of the window has a recoverable producer, the list is defined. -/
theorem nextMinersSpec_defined {poa : BasicPoa} {host : Host} {T : CBlockIndex}
    {p : CKeyID} (hT : T.pprev ≠ none) (hp : producerOf host T = some p)
    (hmem : p ∈ poa._miner_list)
    (hw : ∀ b ∈ recentBlocks (poa._miner_list.length / 2) T, ∃ k, producerOf host b = some k) :
    nextMinersSpec poa host T =
      some ((poa._miner_list.rotate (poa._miner_list.indexOf p + 1)).filter
        (fun k => (eligibleSet poa host T).contains k)) := by
  obtain ⟨r, hr⟩ := recentSpec_of_producers (poa._miner_list.length / 2) T [] hw
  have hi : poa._miner_list.indexOf p < poa._miner_list.length :=
    List.indexOf_lt_length.mpr hmem
  have hhash : ∃ hash, T.phashBlock = some hash := by
    rw [producerOf_eq] at hp
    cases hh : T.phashBlock with
    | none => rw [hh] at hp; exact Option.noConfusion hp
    | some hash => exact ⟨hash, rfl⟩
  obtain ⟨hash, hh⟩ := hhash
  obtain ⟨q, hq⟩ := Option.ne_none_iff_exists'.mp hT
  have hsome : ∃ l, nextMinersSpec poa host T = some l := by
    unfold nextMinersSpec
    rw [hh, hq]
    simp only [hr, hp, if_neg (ne_of_lt hi)]
    exact ⟨_, rfl⟩
  obtain ⟨l, hl⟩ := hsome
  obtain ⟨p1, hp1, _, _, hl1⟩ := nextMinersSpec_child hT hl
  rw [hp, Option.some.injEq] at hp1
  subst hp1
  rw [hl, hl1]

theorem Scenario.rosterInv : RosterInv Scenario.poa :=
  ⟨by decide, fun _ => Iff.rfl⟩

theorem Scenario.hashesDistinct : HashesDistinct Scenario.blockC := by
  unfold HashesDistinct; decide

/-- C3: for a non-genesis tip on which `getNextBlockMinerList` succeeds (roster without
duplicates, sound caches, distinct block hashes), the returned list has no duplicates,
all its elements are roster members, and a roster member is absent from it exactly when
it is the producer of one of the blocks reached by walking back from the tip at most
`n / 2` blocks, the tip included and stopping before genesis. -/
theorem getNextBlockMinerList_excludes_window (poa : BasicPoa) (host : Host)
    (c : MinerCache) (T : CBlockIndex) (l : List CKeyID)
    (hr : RosterInv poa) (hd : HashesDistinct T) (hs : CacheSound poa host c T)
    (hT : T.pprev ≠ none)
    (h : (getNextBlockMinerList poa host c (some T)).1 = some l) :
    l.Nodup ∧ (∀ k ∈ l, k ∈ poa._miner_list) ∧
      ∀ k ∈ poa._miner_list,
        (k ∉ l ↔ ∃ b ∈ recentBlocks (poa._miner_list.length / 2) T,
          producerOf host b = some k) := by
  rw [(getNextBlockMinerList_sound hd hs T (CBlockIndex.self_mem_chain T)).1] at h
  obtain ⟨p, _, _, _, hl⟩ := nextMinersSpec_child hT h
  have hmem : ∀ k, k ∈ l ↔ k ∈ poa._miner_list ∧
      ¬ ∃ b ∈ recentBlocks (poa._miner_list.length / 2) T, producerOf host b = some k := by
    intro k
    rw [hl, List.mem_filter, List.mem_rotate, mem_eligibleSet, hr.2 k]
    tauto
  refine ⟨?_, fun k hk => ((hmem k).mp hk).1, ?_⟩
  · rw [hl]
    exact (List.nodup_rotate.mpr hr.1).filter _
  · intro k hk
    rw [hmem k]
    constructor
    · intro hn
      by_contra hc
      exact hn ⟨hk, hc⟩
    · intro he hn
      exact hn.2 he

theorem getNextBlockMinerList_excludes_window_witness :
    RosterInv Scenario.poa ∧ HashesDistinct Scenario.blockC ∧
      CacheSound Scenario.poa Scenario.host MinerCache.empty Scenario.blockC ∧
      Scenario.blockC.pprev ≠ none ∧
      (getNextBlockMinerList Scenario.poa Scenario.host MinerCache.empty
        (some Scenario.blockC)).1 = some [Scenario.D, Scenario.A] ∧
      ([Scenario.D, Scenario.A].Nodup ∧
        (∀ k ∈ [Scenario.D, Scenario.A], k ∈ Scenario.poa._miner_list) ∧
        ∀ k ∈ Scenario.poa._miner_list,
          (k ∉ [Scenario.D, Scenario.A] ↔
            ∃ b ∈ recentBlocks (Scenario.poa._miner_list.length / 2) Scenario.blockC,
              producerOf Scenario.host b = some k)) :=
  ⟨Scenario.rosterInv, Scenario.hashesDistinct, cacheSound_empty _ _ _, by decide,
    by decide,
    getNextBlockMinerList_excludes_window Scenario.poa Scenario.host MinerCache.empty
      Scenario.blockC [Scenario.D, Scenario.A] Scenario.rosterInv Scenario.hashesDistinct
      (cacheSound_empty _ _ _) (by decide) (by decide)⟩

theorem rotate_eq_circularFrom (L : List CKeyID) (i : Nat) :
    L.rotate (i + 1) = circularFrom L i L.length := by
  apply List.ext_getElem
  · simp [circularFrom]
  · intro k h1 h2
    have hk : k < L.length := by simpa using h1
    have hpos : (i + 1 + k) % L.length < L.length := Nat.mod_lt _ (by omega)
    rw [List.getElem_rotate]
    simp only [circularFrom, List.getElem_map, List.getElem_range]
    rw [List.getD_eq_getElem L 0 hpos]
    congr 1
    rw [Nat.add_comm]

theorem circularFrom_succ (L : List CKeyID) (i len : Nat) :
    circularFrom L i (len + 1) =
      circularFrom L i len ++ [L.getD ((i + 1 + len) % L.length) 0] := by
  simp [circularFrom, List.range_succ]

theorem mem_recentBlocks_self {T : CBlockIndex} (hT : T.pprev ≠ none) (w : Nat) :
    T ∈ recentBlocks (w + 1) T := by
  cases T with
  | genesis h t s => exact absurd rfl hT
  | child h t s p => simp [recentBlocks]

/-- Amended C4: for a non-genesis tip whose producer `p` is at index `i` of the roster,
the list returned by `getNextBlockMinerList` is the circular walk `L[(i+1) mod n]`, ...
over all `n` positions, ending on position `i` itself, filtered to the eligible set;
with at least two authorities `p` is never eligible, and the list is the walk that stops
before position `i`, filtered to the eligible set. -/
theorem getNextBlockMinerList_rotation (poa : BasicPoa) (host : Host) (c : MinerCache)
    (T : CBlockIndex) (p : CKeyID) (i : Nat) (l : List CKeyID)
    (hr : RosterInv poa) (hd : HashesDistinct T) (hs : CacheSound poa host c T)
    (hT : T.pprev ≠ none) (hp : producerOf host T = some p)
    (hi : poa._miner_list[i]? = some p)
    (h : (getNextBlockMinerList poa host c (some T)).1 = some l) :
    l = (circularFrom poa._miner_list i poa._miner_list.length).filter
        (fun k => (eligibleSet poa host T).contains k) ∧
      (2 ≤ poa._miner_list.length →
        l = (circularFrom poa._miner_list i (poa._miner_list.length - 1)).filter
          (fun k => (eligibleSet poa host T).contains k)) := by
  rw [(getNextBlockMinerList_sound hd hs T (CBlockIndex.self_mem_chain T)).1] at h
  obtain ⟨p1, hp1, _, _, hl⟩ := nextMinersSpec_child hT h
  rw [hp, Option.some.injEq] at hp1
  subst hp1
  obtain ⟨hlt, hget⟩ := List.getElem?_eq_some.mp hi
  have hidx : poa._miner_list.indexOf p = i := by
    rw [← hget]; exact List.indexOf_getElem hr.1 i hlt
  rw [hidx, rotate_eq_circularFrom] at hl
  refine ⟨hl, fun h2 => ?_⟩
  obtain ⟨m, hm⟩ : ∃ m, poa._miner_list.length = m + 1 := ⟨poa._miner_list.length - 1, by omega⟩
  have hlast : poa._miner_list.getD ((i + 1 + m) % poa._miner_list.length) 0 = p := by
    have : (i + 1 + m) % poa._miner_list.length = i := by
      rw [show i + 1 + m = i + poa._miner_list.length by omega, Nat.add_mod_right,
        Nat.mod_eq_of_lt hlt]
    rw [this, List.getD_eq_getElem _ 0 hlt, hget]
  have hnot : (eligibleSet poa host T).contains p = false := by
    rw [Bool.eq_false_iff]
    intro hc
    rw [mem_eligibleSet] at hc
    apply hc.2
    obtain ⟨w, hw⟩ : ∃ w, poa._miner_list.length / 2 = w + 1 :=
      ⟨poa._miner_list.length / 2 - 1, by omega⟩
    rw [hw]
    exact ⟨T, mem_recentBlocks_self hT w, hp⟩
  have key : ∀ n : Nat, n = m + 1 → circularFrom poa._miner_list i n =
      circularFrom poa._miner_list i (n - 1) ++
        [poa._miner_list.getD ((i + 1 + m) % poa._miner_list.length) 0] := by
    intro n hn
    subst hn
    exact circularFrom_succ poa._miner_list i m
  rw [hl, key _ hm, List.filter_append, hlast]
  simp only [List.filter_cons, hnot, List.filter_nil, List.append_nil, Bool.false_eq_true,
    if_false]

/-! ## The timing rule -/

theorem assignedTime_eq (poa : BasicPoa) (nTime j : Nat) :
    assignedTime poa nTime j = (nTime + poa._interval + j * poa._timeout) % 2 ^ 32 := by
  simp only [assignedTime, u32, u32add, u32mul]
  have h1 : (j % 2 ^ 32 * poa._timeout) % 2 ^ 32 = (j * poa._timeout) % 2 ^ 32 :=
    Nat.mod_mul_mod
  rw [h1]
  generalize j * poa._timeout = x
  omega

/-- The result of the three-argument `canMineNextBlock` in terms of the list returned by
`getNextBlockMinerList` from the same cache. -/
theorem canMineNextBlock_fst (poa : BasicPoa) (host : Host) (c : MinerCache)
    (miner : CKeyID) (T : CBlockIndex) :
    (canMineNextBlock poa host c miner (some T)).1 =
      if miner = 0 then none
      else
        match (getNextBlockMinerList poa host c (some T)).1 with
        | none => none
        | some l =>
          if miner ∈ l then some (assignedTime poa T.nTime (l.indexOf miner)) else none := by
  unfold canMineNextBlock
  by_cases hm : miner = 0
  · simp [hm]
  · cases hh : T.phashBlock with
    | none =>
      simp only [hh, hm, or_true, if_true, if_false]
      simp [getNextBlockMinerList, hh]
    | some hash =>
      simp only [hm, hh, false_or, if_false]
      cases hg : getNextBlockMinerList poa host c (some T) with
      | mk r c1 =>
        cases r with
        | none => simp
        | some l =>
          by_cases hl : miner ∈ l
          · simp [hl, assignedTime]
          · simp [hl]

/-! ## Claims on the rotation (C4), one authority (C9), two authorities (C10) -/

theorem Scenario.soloInv : RosterInv Scenario.solo :=
  ⟨by decide, fun _ => Iff.rfl⟩

theorem Scenario.hashesDistinctA : HashesDistinct Scenario.blockA := by
  unfold HashesDistinct; decide

/-- C4 as stated fails for a one-authority roster: the tip `blockA` is produced by `A`
at index 0 of `[A]`, the walk that stops before position 0 is empty, and
`getNextBlockMinerList` returns `[A]`. -/
theorem getNextBlockMinerList_rotation_counterexample :
    RosterInv Scenario.solo ∧ HashesDistinct Scenario.blockA ∧
      CacheSound Scenario.solo Scenario.host MinerCache.empty Scenario.blockA ∧
      Scenario.blockA.pprev ≠ none ∧
      producerOf Scenario.host Scenario.blockA = some Scenario.A ∧
      Scenario.solo._miner_list[0]? = some Scenario.A ∧
      (getNextBlockMinerList Scenario.solo Scenario.host MinerCache.empty
        (some Scenario.blockA)).1 = some [Scenario.A] ∧
      [Scenario.A] ≠
        (circularFrom Scenario.solo._miner_list 0
          (Scenario.solo._miner_list.length - 1)).filter
          (fun k => (eligibleSet Scenario.solo Scenario.host Scenario.blockA).contains k) :=
  ⟨Scenario.soloInv, Scenario.hashesDistinctA, cacheSound_empty _ _ _, by decide, by decide,
    by decide, by decide, by decide⟩

theorem getNextBlockMinerList_rotation_witness :
    RosterInv Scenario.poa ∧ HashesDistinct Scenario.blockC ∧
      CacheSound Scenario.poa Scenario.host MinerCache.empty Scenario.blockC ∧
      Scenario.blockC.pprev ≠ none ∧
      producerOf Scenario.host Scenario.blockC = some Scenario.C ∧
      Scenario.poa._miner_list[2]? = some Scenario.C ∧
      (getNextBlockMinerList Scenario.poa Scenario.host MinerCache.empty
        (some Scenario.blockC)).1 = some [Scenario.D, Scenario.A] ∧
      ([Scenario.D, Scenario.A] =
          (circularFrom Scenario.poa._miner_list 2 Scenario.poa._miner_list.length).filter
            (fun k => (eligibleSet Scenario.poa Scenario.host Scenario.blockC).contains k) ∧
        (2 ≤ Scenario.poa._miner_list.length →
          [Scenario.D, Scenario.A] =
            (circularFrom Scenario.poa._miner_list 2
              (Scenario.poa._miner_list.length - 1)).filter
              (fun k =>
                (eligibleSet Scenario.poa Scenario.host Scenario.blockC).contains k))) :=
  ⟨Scenario.rosterInv, Scenario.hashesDistinct, cacheSound_empty _ _ _, by decide, by decide,
    by decide, by decide,
    getNextBlockMinerList_rotation Scenario.poa Scenario.host MinerCache.empty
      Scenario.blockC Scenario.C 2 [Scenario.D, Scenario.A] Scenario.rosterInv
      Scenario.hashesDistinct (cacheSound_empty _ _ _) (by decide) (by decide) (by decide)
      (by decide)⟩

/-- C9 as stated fails: with the one-authority roster `[A]` and the non-genesis tip
`blockA`, `getNextBlockMinerList` returns `[A]` and `canMineNextBlock(A, blockA)` returns
true (with time 1020). -/
theorem single_authority_counterexample :
    Scenario.solo._miner_list.length = 1 ∧ Scenario.blockA.pprev ≠ none ∧
      (getNextBlockMinerList Scenario.solo Scenario.host MinerCache.empty
        (some Scenario.blockA)).1 = some [Scenario.A] ∧
      (canMineNextBlock Scenario.solo Scenario.host MinerCache.empty Scenario.A
        (some Scenario.blockA)).1 = some 1020 := by
  decide

theorem recentBlocks_zero (T : CBlockIndex) : recentBlocks 0 T = [] := by
  cases T <;> rfl

theorem recentBlocks_one {T : CBlockIndex} (hT : T.pprev ≠ none) :
    recentBlocks 1 T = [T] := by
  cases T with
  | genesis h t s => exact absurd rfl hT
  | child h t s p => simp [recentBlocks, recentBlocks_zero]

/-- Amended C9: with a one-authority roster `[k0]` the window is `1 / 2 = 0` blocks, so
nothing is excluded: on a non-genesis tip `getNextBlockMinerList` returns `[k0]` when the
tip's recovered producer is `k0` and fails otherwise, and in the first case a non-null
`k0` may mine, at time `(T.nTime + interval) mod 2^32`. -/
theorem single_authority_list (poa : BasicPoa) (host : Host) (c : MinerCache)
    (T : CBlockIndex) (k0 : CKeyID) (hL : poa._miner_list = [k0]) (hr : RosterInv poa)
    (hd : HashesDistinct T) (hs : CacheSound poa host c T) (hT : T.pprev ≠ none) :
    (getNextBlockMinerList poa host c (some T)).1 =
        (if producerOf host T = some k0 then some [k0] else none) ∧
      (producerOf host T = some k0 → k0 ≠ 0 →
        (canMineNextBlock poa host c k0 (some T)).1 =
          some ((T.nTime + poa._interval) % 2 ^ 32)) := by
  have h0 : poa._miner_list.length / 2 = 0 := by rw [hL]; simp
  have hlist : (getNextBlockMinerList poa host c (some T)).1 =
      (if producerOf host T = some k0 then some [k0] else none) := by
    rw [(getNextBlockMinerList_sound hd hs T (CBlockIndex.self_mem_chain T)).1]
    by_cases hp : producerOf host T = some k0
    · rw [if_pos hp]
      have hw : ∀ b ∈ recentBlocks (poa._miner_list.length / 2) T,
          ∃ k, producerOf host b = some k := by
        intro b hb
        rw [h0, recentBlocks_zero] at hb
        exact absurd hb (List.not_mem_nil b)
      rw [nextMinersSpec_defined hT hp (by rw [hL]; simp) hw]
      have hE : (eligibleSet poa host T).contains k0 = true := by
        rw [mem_eligibleSet, hr.2, h0, recentBlocks_zero, hL]
        simp
      have hE1 : k0 ∈ eligibleSet poa host T := by simpa using hE
      rw [hL]
      simp [hE1]
    · rw [if_neg hp]
      cases hn : nextMinersSpec poa host T with
      | none => rfl
      | some l =>
        obtain ⟨p, hp1, hp2, _, _⟩ := nextMinersSpec_child hT hn
        have : p ∈ poa._miner_list := List.indexOf_lt_length.mp hp2
        rw [hL, List.mem_singleton] at this
        subst this
        exact absurd hp1 hp
  refine ⟨hlist, fun hp hk => ?_⟩
  rw [canMineNextBlock_fst, if_neg hk, hlist, if_pos hp]
  simp [assignedTime_eq]

theorem single_authority_list_witness :
    Scenario.solo._miner_list = [Scenario.A] ∧ RosterInv Scenario.solo ∧
      HashesDistinct Scenario.blockA ∧
      CacheSound Scenario.solo Scenario.host MinerCache.empty Scenario.blockA ∧
      Scenario.blockA.pprev ≠ none ∧
      ((getNextBlockMinerList Scenario.solo Scenario.host MinerCache.empty
          (some Scenario.blockA)).1 =
          (if producerOf Scenario.host Scenario.blockA = some Scenario.A
            then some [Scenario.A] else none) ∧
        (producerOf Scenario.host Scenario.blockA = some Scenario.A → Scenario.A ≠ 0 →
          (canMineNextBlock Scenario.solo Scenario.host MinerCache.empty Scenario.A
            (some Scenario.blockA)).1 =
            some ((Scenario.blockA.nTime + Scenario.solo._interval) % 2 ^ 32))) :=
  ⟨rfl, Scenario.soloInv, Scenario.hashesDistinctA, cacheSound_empty _ _ _, by decide,
    single_authority_list Scenario.solo Scenario.host MinerCache.empty Scenario.blockA
      Scenario.A rfl Scenario.soloInv Scenario.hashesDistinctA (cacheSound_empty _ _ _)
      (by decide)⟩

theorem Scenario.pairInv : RosterInv Scenario.pair :=
  ⟨by decide, fun _ => Iff.rfl⟩

/-- C10: with a roster of exactly two authorities `[k0, k1]` and a non-genesis tip whose
producer `p` is a roster member, `getNextBlockMinerList` returns the one-element list
holding the other authority; hence any miner that `canMineNextBlock` allows on the tip is
the other authority, and consecutive blocks alternate. -/
theorem two_authorities_alternate (poa : BasicPoa) (host : Host) (c : MinerCache)
    (T : CBlockIndex) (k0 k1 p : CKeyID) (hL : poa._miner_list = [k0, k1])
    (hr : RosterInv poa) (hd : HashesDistinct T) (hs : CacheSound poa host c T)
    (hT : T.pprev ≠ none) (hp : producerOf host T = some p)
    (hmem : p ∈ poa._miner_list) :
    (getNextBlockMinerList poa host c (some T)).1 = some [if p = k0 then k1 else k0] ∧
      ∀ miner t, (canMineNextBlock poa host c miner (some T)).1 = some t →
        miner = (if p = k0 then k1 else k0) ∧ miner ≠ p := by
  have hne : k0 ≠ k1 := by
    have := hr.1
    rw [hL] at this
    simpa using this
  have h1 : poa._miner_list.length / 2 = 1 := by rw [hL]; simp
  have hw : ∀ b ∈ recentBlocks (poa._miner_list.length / 2) T,
      ∃ k, producerOf host b = some k := by
    intro b hb
    rw [h1, recentBlocks_one hT, List.mem_singleton] at hb
    subst hb
    exact ⟨p, hp⟩
  have hE : ∀ k, k ∈ eligibleSet poa host T ↔ (k = k0 ∨ k = k1) ∧ k ≠ p := by
    intro k
    have hc : k ∈ eligibleSet poa host T ↔ (eligibleSet poa host T).contains k = true := by
      simp
    rw [hc, mem_eligibleSet, hr.2, h1, recentBlocks_one hT, hL]
    simp only [List.mem_cons, List.mem_singleton, exists_eq_left, hp, Option.some.injEq,
      List.not_mem_nil, or_false]
    constructor
    · rintro ⟨h2, h3⟩; exact ⟨h2, fun e => h3 e.symm⟩
    · rintro ⟨h2, h3⟩; exact ⟨h2, fun e => h3 e.symm⟩
  have hlist : (getNextBlockMinerList poa host c (some T)).1 =
      some [if p = k0 then k1 else k0] := by
    rw [(getNextBlockMinerList_sound hd hs T (CBlockIndex.self_mem_chain T)).1,
      nextMinersSpec_defined hT hp hmem hw]
    rw [hL, List.mem_cons, List.mem_singleton] at hmem
    rcases hmem with rfl | rfl
    · have e0 : p ∉ eligibleSet poa host T := by rw [hE]; simp
      have e1 : k1 ∈ eligibleSet poa host T := by rw [hE]; exact ⟨Or.inr rfl, fun e => hne e.symm⟩
      rw [hL]
      simp [List.rotate, e0, e1]
    · have e0 : p ∉ eligibleSet poa host T := by rw [hE]; simp
      have e1 : k0 ∈ eligibleSet poa host T := by rw [hE]; exact ⟨Or.inl rfl, hne⟩
      rw [hL]
      have hi : List.indexOf p [k0, p] = 1 := by
        simp [List.indexOf_cons, hne]
      rw [hi]
      simp [List.rotate, e0, e1, hne.symm]
  refine ⟨hlist, ?_⟩
  intro miner t ht
  rw [canMineNextBlock_fst, hlist] at ht
  by_cases hm : miner = 0
  · rw [if_pos hm] at ht; exact Option.noConfusion ht
  · rw [if_neg hm] at ht
    simp only at ht
    by_cases hin : miner ∈ [if p = k0 then k1 else k0]
    · rw [List.mem_singleton] at hin
      refine ⟨hin, ?_⟩
      rw [hin]
      rw [hL, List.mem_cons, List.mem_singleton] at hmem
      rcases hmem with rfl | rfl
      · simp [hne.symm]
      · simp [hne.symm, hne]
    · rw [if_neg hin] at ht; exact Option.noConfusion ht

theorem two_authorities_alternate_witness :
    Scenario.pair._miner_list = [Scenario.A, Scenario.B] ∧ RosterInv Scenario.pair ∧
      HashesDistinct Scenario.blockA ∧
      CacheSound Scenario.pair Scenario.host MinerCache.empty Scenario.blockA ∧
      Scenario.blockA.pprev ≠ none ∧
      producerOf Scenario.host Scenario.blockA = some Scenario.A ∧
      Scenario.A ∈ Scenario.pair._miner_list ∧
      ((getNextBlockMinerList Scenario.pair Scenario.host MinerCache.empty
          (some Scenario.blockA)).1 =
          some [if Scenario.A = Scenario.A then Scenario.B else Scenario.A] ∧
        ∀ miner t, (canMineNextBlock Scenario.pair Scenario.host MinerCache.empty miner
            (some Scenario.blockA)).1 = some t →
          miner = (if Scenario.A = Scenario.A then Scenario.B else Scenario.A) ∧
            miner ≠ Scenario.A) :=
  ⟨rfl, Scenario.pairInv, Scenario.hashesDistinctA, cacheSound_empty _ _ _, by decide,
    by decide, by decide,
    two_authorities_alternate Scenario.pair Scenario.host MinerCache.empty Scenario.blockA
      Scenario.A Scenario.B Scenario.A rfl Scenario.pairInv Scenario.hashesDistinctA
      (cacheSound_empty _ _ _) (by decide) (by decide) (by decide)⟩

/-! ## Claims on the window scenario (C8) and the genesis tip (C5) -/

/-- C8 as stated fails: on the chain genesis, A, B, C with roster `[A, B, C, D]`,
`canMineNextBlock(A, C)` returns true. -/
theorem recent_window_counterexample :
    Scenario.poa._miner_list = [Scenario.A, Scenario.B, Scenario.C, Scenario.D] ∧
      Scenario.blockC.chain.map (producerOf Scenario.host) =
        [some Scenario.C, some Scenario.B, some Scenario.A, none] ∧
      (canMineNextBlock Scenario.poa Scenario.host MinerCache.empty Scenario.A
        (some Scenario.blockC)).1 ≠ none := by
  decide

/-- Amended C8: on the chain genesis, A, B, C with roster `[A, B, C, D]` the window holds
the `4 / 2 = 2` most recent blocks, those of `C` and `B`; the list for the tip is `[D, A]`,
so `A` is eligible (at position 1, time 1049) and so is `D` (position 0, time 1046),
while `B` and `C` are not. -/
theorem recent_window_scenario :
    recentBlocks (Scenario.poa._miner_list.length / 2) Scenario.blockC =
        [Scenario.blockC, Scenario.blockB] ∧
      (getNextBlockMinerList Scenario.poa Scenario.host MinerCache.empty
        (some Scenario.blockC)).1 = some [Scenario.D, Scenario.A] ∧
      (canMineNextBlock Scenario.poa Scenario.host MinerCache.empty Scenario.A
        (some Scenario.blockC)).1 = some 1049 ∧
      (canMineNextBlock Scenario.poa Scenario.host MinerCache.empty Scenario.D
        (some Scenario.blockC)).1 = some 1046 ∧
      (canMineNextBlock Scenario.poa Scenario.host MinerCache.empty Scenario.B
        (some Scenario.blockC)).1 = none ∧
      (canMineNextBlock Scenario.poa Scenario.host MinerCache.empty Scenario.C
        (some Scenario.blockC)).1 = none := by
  decide

theorem Scenario.wideInv : RosterInv Scenario.wide :=
  ⟨by decide, fun _ => Iff.rfl⟩

/-- C5 as stated fails when the 32-bit sum wraps: with interval `2^32 - 1` and genesis
time 1000, `canMineNextBlock(A, genesis)` yields 999, not `1000 + (2^32 - 1) + 0 * 3`. -/
theorem genesis_times_counterexample :
    Scenario.genesis.pprev = none ∧ Scenario.wide._miner_list[0]? = some Scenario.A ∧
      Scenario.A ≠ 0 ∧
      (canMineNextBlock Scenario.wide Scenario.host MinerCache.empty Scenario.A
        (some Scenario.genesis)).1 = some 999 ∧
      999 ≠ Scenario.genesis.nTime + Scenario.wide._interval + 0 * Scenario.wide._timeout := by
  decide

/-- Amended C5: when the tip is genesis and carries a block hash, `getNextBlockMinerList`
succeeds, returns exactly the roster in roster order and leaves the caches untouched; for
every `j` the non-null authority `L[j]` is eligible, `canMineNextBlock` yielding the
32-bit sum `(T.nTime + interval + j * timeout) mod 2^32`, which is
`T.nTime + interval + j * timeout` whenever that sum is below `2^32`. -/
theorem genesis_roster_and_times (poa : BasicPoa) (host : Host) (c : MinerCache)
    (T : CBlockIndex) (hr : RosterInv poa) (hT : T.pprev = none)
    (hh : T.phashBlock ≠ none) :
    getNextBlockMinerList poa host c (some T) = (some poa._miner_list, c) ∧
      ∀ j k, poa._miner_list[j]? = some k → k ≠ 0 →
        (canMineNextBlock poa host c k (some T)).1 =
            some ((T.nTime + poa._interval + j * poa._timeout) % 2 ^ 32) ∧
          (T.nTime + poa._interval + j * poa._timeout < 2 ^ 32 →
            (canMineNextBlock poa host c k (some T)).1 =
              some (T.nTime + poa._interval + j * poa._timeout)) := by
  have hlist : getNextBlockMinerList poa host c (some T) = (some poa._miner_list, c) := by
    obtain ⟨hash, hhash⟩ := Option.ne_none_iff_exists'.mp hh
    simp only [getNextBlockMinerList, hhash, hT]
  refine ⟨hlist, fun j k hj hk => ?_⟩
  obtain ⟨hlt, hget⟩ := List.getElem?_eq_some.mp hj
  have hidx : poa._miner_list.indexOf k = j := by
    rw [← hget]; exact List.indexOf_getElem hr.1 j hlt
  have hmem : k ∈ poa._miner_list := List.mem_iff_getElem?.mpr ⟨j, hj⟩
  have hres : (canMineNextBlock poa host c k (some T)).1 =
      some ((T.nTime + poa._interval + j * poa._timeout) % 2 ^ 32) := by
    rw [canMineNextBlock_fst, if_neg hk, hlist]
    simp only [hmem, if_true, hidx, assignedTime_eq]
  exact ⟨hres, fun hlt2 => by rw [hres, Nat.mod_eq_of_lt hlt2]⟩

theorem genesis_roster_and_times_witness :
    RosterInv Scenario.poa ∧ Scenario.genesis.pprev = none ∧
      Scenario.genesis.phashBlock ≠ none ∧
      (getNextBlockMinerList Scenario.poa Scenario.host MinerCache.empty
          (some Scenario.genesis)).1 =
        some [Scenario.A, Scenario.B, Scenario.C, Scenario.D] ∧
      (canMineNextBlock Scenario.poa Scenario.host MinerCache.empty Scenario.A
        (some Scenario.genesis)).1 = some 1010 ∧
      (canMineNextBlock Scenario.poa Scenario.host MinerCache.empty Scenario.B
        (some Scenario.genesis)).1 = some 1013 ∧
      (canMineNextBlock Scenario.poa Scenario.host MinerCache.empty Scenario.C
        (some Scenario.genesis)).1 = some 1016 ∧
      (canMineNextBlock Scenario.poa Scenario.host MinerCache.empty Scenario.D
        (some Scenario.genesis)).1 = some 1019 :=
  have h := genesis_roster_and_times Scenario.poa Scenario.host MinerCache.empty
    Scenario.genesis Scenario.rosterInv rfl (by decide)
  ⟨Scenario.rosterInv, rfl, by decide, congrArg Prod.fst h.1,
    (h.2 0 Scenario.A (by decide) (by decide)).2 (by decide),
    (h.2 1 Scenario.B (by decide) (by decide)).2 (by decide),
    (h.2 2 Scenario.C (by decide) (by decide)).2 (by decide),
    (h.2 3 Scenario.D (by decide) (by decide)).2 (by decide)⟩

/-! ## The local miner's clamp (C7) -/

/-- The result of the two-argument `canMineNextBlock` in terms of the three-argument one
called for `_miner`. -/
theorem canMineNextBlockSelf_fst (poa : BasicPoa) (host : Host) (c : MinerCache)
    (now : Int) (T : CBlockIndex) :
    (canMineNextBlockSelf poa host c now (some T)).1 =
      match (canMineNextBlock poa host c poa._miner (some T)).1 with
      | none => none
      | some t => some (max t (now % 2 ^ 32).toNat) := by
  simp only [canMineNextBlockSelf]
  cases hh : T.phashBlock with
  | none =>
    simp [canMineNextBlock, hh]
  | some hash =>
    have hne : ¬ (some hash : Option uint256) = none := fun e => Option.noConfusion e
    simp only [if_neg hne]
    cases hg : canMineNextBlock poa host c poa._miner (some T) with
    | mk r c1 =>
      cases r with
      | none => rfl
      | some t =>
        simp only
        by_cases hlt : t < (now % 2 ^ 32).toNat
        · rw [if_pos hlt, max_eq_right (le_of_lt hlt)]
        · rw [if_neg hlt, max_eq_left (not_lt.mp hlt)]

/-- C7 as stated fails when the 32-bit sum wraps: with interval `2^32 - 1`, tip `C` at
1036, the local miner `D` at position 0 and the clock at 500, the call returns 1035, not
`max(1036 + (2^32 - 1) + 0 * 3, 500)`. -/
theorem clamp_counterexample :
    (getNextBlockMinerList Scenario.wide Scenario.host MinerCache.empty
        (some Scenario.blockC)).1 = some [Scenario.D, Scenario.A] ∧
      Scenario.wide._miner = Scenario.D ∧
      [Scenario.D, Scenario.A][0]? = some Scenario.wide._miner ∧
      (canMineNextBlockSelf Scenario.wide Scenario.host MinerCache.empty 500
        (some Scenario.blockC)).1 = some 1035 ∧
      1035 ≠ max (Scenario.blockC.nTime + Scenario.wide._interval +
        0 * Scenario.wide._timeout) 500 := by
  decide

/-- Amended C7: for a non-null local miner whose first position in the list returned by
`getNextBlockMinerList(T)` is `j`, the two-argument `canMineNextBlock(T)` returns true
with `next_block_time = max(e, now32)`, where `e = (T.nTime + interval + j * timeout)
mod 2^32` is the 32-bit earliest time and `now32` the adjusted time converted to
`uint32_t`; when the sum does not wrap and the clock fits 32 bits this is
`max(T.nTime + interval + j * timeout, now)`. -/
theorem canMineNextBlockSelf_clamp (poa : BasicPoa) (host : Host) (c : MinerCache)
    (now : Int) (T : CBlockIndex) (l : List CKeyID) (j : Nat)
    (hm : poa._miner ≠ 0)
    (hl : (getNextBlockMinerList poa host c (some T)).1 = some l)
    (hj : l.indexOf poa._miner = j) (hjl : j < l.length) :
    (canMineNextBlockSelf poa host c now (some T)).1 =
        some (max ((T.nTime + poa._interval + j * poa._timeout) % 2 ^ 32)
          (now % 2 ^ 32).toNat) ∧
      (T.nTime + poa._interval + j * poa._timeout < 2 ^ 32 → 0 ≤ now → now < 2 ^ 32 →
        (canMineNextBlockSelf poa host c now (some T)).1 =
          some (max (T.nTime + poa._interval + j * poa._timeout) now.toNat)) := by
  have hmem : poa._miner ∈ l := List.indexOf_lt_length.mp (hj ▸ hjl)
  have hres : (canMineNextBlockSelf poa host c now (some T)).1 =
      some (max ((T.nTime + poa._interval + j * poa._timeout) % 2 ^ 32)
        (now % 2 ^ 32).toNat) := by
    rw [canMineNextBlockSelf_fst, canMineNextBlock_fst, if_neg hm, hl]
    simp only [hmem, if_true, hj, assignedTime_eq]
  refine ⟨hres, fun h1 h2 h3 => ?_⟩
  rw [hres, Nat.mod_eq_of_lt h1, Int.emod_eq_of_lt h2 h3]

theorem canMineNextBlockSelf_clamp_witness :
    Scenario.poa._miner ≠ 0 ∧
      (getNextBlockMinerList Scenario.poa Scenario.host MinerCache.empty
        (some Scenario.blockC)).1 = some [Scenario.D, Scenario.A] ∧
      [Scenario.D, Scenario.A].indexOf Scenario.poa._miner = 0 ∧
      0 < [Scenario.D, Scenario.A].length ∧
      (canMineNextBlock Scenario.poa Scenario.host MinerCache.empty Scenario.D
        (some Scenario.blockC)).1 = some 1046 ∧
      (canMineNextBlockSelf Scenario.poa Scenario.host MinerCache.empty 1100
        (some Scenario.blockC)).1 = some (max (1036 + 10 + 0 * 3) 1100) ∧
      max (1036 + 10 + 0 * 3) 1100 = 1100 :=
  ⟨by decide, by decide, by decide, by decide, by decide,
    (canMineNextBlockSelf_clamp Scenario.poa Scenario.host MinerCache.empty 1100
      Scenario.blockC [Scenario.D, Scenario.A] 0 (by decide) (by decide) (by decide)
      (by decide)).2 (by decide) (by decide) (by decide),
    by decide⟩

/-! ## The validator -/

/-- The decision of `checkBlock`, step by step: the header is not null and either its
hash is the genesis hash, or the parent is known, the producer is recovered, the scheduler
assigns the producer a time on the parent and the header is not earlier. -/
theorem checkBlock_fst (poa : BasicPoa) (host : Host) (c : MinerCache)
    (block : CBlockHeader) :
    (checkBlock poa host c block).1 = true ↔
      host.IsNull block = false ∧
        (host.GetHash block = host.hashGenesisBlock ∨
          ∃ P k c1 t, host.mapBlockIndex block.hashPrevBlock = some P ∧
            getBlockMinerHeader host c block = (some k, c1) ∧
            (canMineNextBlock poa host c1 k (some P)).1 = some t ∧ t ≤ block.nTime) := by
  unfold checkBlock
  by_cases hn : host.IsNull block = true
  · simp [hn]
  · have hn1 : host.IsNull block = false := by simpa using hn
    simp only [hn1, Bool.false_eq_true, if_false, true_and]
    by_cases hg : host.GetHash block = host.hashGenesisBlock
    · simp [hg]
    · simp only [hg, if_false, false_or]
      cases hP : host.mapBlockIndex block.hashPrevBlock with
      | none => simp
      | some P =>
        simp only
        cases hk : getBlockMinerHeader host c block with
        | mk r c1 =>
          cases r with
          | none => simp
          | some k =>
            simp only
            cases ht : canMineNextBlock poa host c1 k (some P) with
            | mk r2 c2 =>
              cases r2 with
              | none => simp [ht]
              | some t =>
                by_cases hlt : block.nTime < t
                · simp only [if_pos hlt]
                  constructor
                  · intro h; exact Bool.noConfusion h
                  · rintro ⟨P1, k1, c3, t1, h1, h2, h3, h4⟩
                    simp only [Option.some.injEq, Prod.mk.injEq] at h1 h2
                    obtain ⟨rfl, rfl⟩ := h2
                    subst h1
                    rw [ht] at h3
                    simp only [Option.some.injEq] at h3
                    omega
                · simp only [if_neg hlt]
                  refine ⟨fun _ => ⟨P, k, c1, t, rfl, rfl, ?_, not_lt.mp hlt⟩, fun _ => trivial⟩
                  rw [ht]

theorem nextMinersSpec_subset {poa : BasicPoa} {host : Host} {T : CBlockIndex}
    {l : List CKeyID} (h : nextMinersSpec poa host T = some l) :
    ∀ k ∈ l, k ∈ poa._miner_list := by
  intro k hk
  cases hpp : T.pprev with
  | none =>
    unfold nextMinersSpec at h
    cases hh : T.phashBlock with
    | none => rw [hh] at h; exact Option.noConfusion h
    | some hash =>
      rw [hh, hpp] at h
      simp only [Option.some.injEq] at h
      rw [h]; exact hk
  | some q =>
    have hT : T.pprev ≠ none := by rw [hpp]; exact fun e => Option.noConfusion e
    obtain ⟨p, _, _, _, hl⟩ := nextMinersSpec_child hT h
    rw [hl, List.mem_filter, List.mem_rotate] at hk
    exact hk.1

/-- What a successful three-argument `canMineNextBlock` says about the list returned by
`getNextBlockMinerList` from the same cache. -/
theorem canMineNextBlock_some {poa : BasicPoa} {host : Host} {c : MinerCache}
    {miner : CKeyID} {T : CBlockIndex} {t : Nat}
    (h : (canMineNextBlock poa host c miner (some T)).1 = some t) :
    miner ≠ 0 ∧ ∃ l, (getNextBlockMinerList poa host c (some T)).1 = some l ∧ miner ∈ l ∧
      t = assignedTime poa T.nTime (l.indexOf miner) := by
  rw [canMineNextBlock_fst] at h
  by_cases hm : miner = 0
  · rw [if_pos hm] at h; exact Option.noConfusion h
  · rw [if_neg hm] at h
    refine ⟨hm, ?_⟩
    cases hl : (getNextBlockMinerList poa host c (some T)).1 with
    | none => rw [hl] at h; exact Option.noConfusion h
    | some l =>
      rw [hl] at h
      simp only at h
      by_cases hin : miner ∈ l
      · rw [if_pos hin, Option.some.injEq] at h
        exact ⟨l, rfl, hin, h.symm⟩
      · rw [if_neg hin] at h; exact Option.noConfusion h

/-- C2 as stated fails when the 32-bit sum wraps: with interval `2^32 - 1` and parent `C`
at 1036, the header of `D` (position 0 of `[D, A]`) stamped 1035 is accepted, although
`1035 < 1036 + (2^32 - 1) + 0 * 3`. -/
theorem checkBlock_time_counterexample :
    Scenario.host.GetHash Scenario.headerD1035 ≠ Scenario.host.hashGenesisBlock ∧
      Scenario.host.mapBlockIndex Scenario.headerD1035.hashPrevBlock =
        some Scenario.blockC ∧
      (checkBlock Scenario.wide Scenario.host MinerCache.empty Scenario.headerD1035).1 = true ∧
      headerProducer Scenario.host Scenario.headerD1035 = some Scenario.D ∧
      (getNextBlockMinerList Scenario.wide Scenario.host MinerCache.empty
        (some Scenario.blockC)).1 = some [Scenario.D, Scenario.A] ∧
      [Scenario.D, Scenario.A][0]? = some Scenario.D ∧
      ¬ (Scenario.headerD1035.nTime ≥
        Scenario.blockC.nTime + Scenario.wide._interval + 0 * Scenario.wide._timeout) := by
  decide

/-- Amended C2: for every non-genesis header `B` that `checkBlock` accepts, the parent `P`
is known, the producer `k` is recovered and is an element of the list returned by
`getNextBlockMinerList(P)`, and with `j` its first position in that list
`B.nTime >= (P.nTime + interval + j * timeout) mod 2^32`, the sum as computed in 32-bit
arithmetic; `B.nTime >= P.nTime + interval + j * timeout` holds whenever that sum is
below `2^32`. In a list without duplicates the first position is the only position. -/
theorem checkBlock_time_bound (poa : BasicPoa) (host : Host) (c : MinerCache)
    (block : CBlockHeader) (hacc : (checkBlock poa host c block).1 = true)
    (hng : host.GetHash block ≠ host.hashGenesisBlock) :
    ∃ P k c1 l, host.mapBlockIndex block.hashPrevBlock = some P ∧
      getBlockMinerHeader host c block = (some k, c1) ∧
      (getNextBlockMinerList poa host c1 (some P)).1 = some l ∧
      l.indexOf k < l.length ∧
      (P.nTime + poa._interval + l.indexOf k * poa._timeout) % 2 ^ 32 ≤ block.nTime ∧
      (P.nTime + poa._interval + l.indexOf k * poa._timeout < 2 ^ 32 →
        P.nTime + poa._interval + l.indexOf k * poa._timeout ≤ block.nTime) ∧
      (l.Nodup → ∀ j : Nat, l[j]? = some k → l.indexOf k = j) := by
  obtain ⟨_, h⟩ := (checkBlock_fst poa host c block).mp hacc
  rcases h with h | ⟨P, k, c1, t, hP, hk, ht, hle⟩
  · exact absurd h hng
  · obtain ⟨_, l, hl, hin, hte⟩ := canMineNextBlock_some ht
    rw [assignedTime_eq] at hte
    refine ⟨P, k, c1, l, hP, hk, hl, List.indexOf_lt_length.mpr hin, ?_, ?_, ?_⟩
    · rw [← hte]; exact hle
    · intro hlt
      rw [Nat.mod_eq_of_lt hlt] at hte
      rw [← hte]; exact hle
    · intro hnd j hj
      obtain ⟨hlt, hget⟩ := List.getElem?_eq_some.mp hj
      rw [← hget]
      exact List.indexOf_getElem hnd j hlt

theorem checkBlock_time_bound_witness :
    (checkBlock Scenario.poa Scenario.host MinerCache.empty Scenario.headerD1046).1 = true ∧
      Scenario.host.GetHash Scenario.headerD1046 ≠ Scenario.host.hashGenesisBlock ∧
      ∃ P k c1 l, Scenario.host.mapBlockIndex Scenario.headerD1046.hashPrevBlock = some P ∧
        getBlockMinerHeader Scenario.host MinerCache.empty Scenario.headerD1046 =
          (some k, c1) ∧
        (getNextBlockMinerList Scenario.poa Scenario.host c1 (some P)).1 = some l ∧
        l.indexOf k < l.length ∧
        (P.nTime + Scenario.poa._interval + l.indexOf k * Scenario.poa._timeout) % 2 ^ 32 ≤
          Scenario.headerD1046.nTime ∧
        (P.nTime + Scenario.poa._interval + l.indexOf k * Scenario.poa._timeout < 2 ^ 32 →
          P.nTime + Scenario.poa._interval + l.indexOf k * Scenario.poa._timeout ≤
            Scenario.headerD1046.nTime) ∧
        (l.Nodup → ∀ j : Nat, l[j]? = some k → l.indexOf k = j) :=
  ⟨by decide, by decide,
    checkBlock_time_bound Scenario.poa Scenario.host MinerCache.empty Scenario.headerD1046
      (by decide) (by decide)⟩

/-- C6: `checkBlock` accepts a non-null header if and only if its hash is the genesis
hash, or its `hashPrevBlock` is a known block `P`, producer recovery succeeds with `k`,
`k` is in the list of `getNextBlockMinerList(P)` at some position `j`, and the header's
time is at least the time `canMineNextBlock` assigns to `k` on `P`. A header whose
producer is not in the roster is rejected (sound caches), and in the scenario the header
of `D` on parent `C` is rejected at 1045 and accepted at 1046. -/
theorem checkBlock_accepts_iff (poa : BasicPoa) (host : Host) (c : MinerCache)
    (block : CBlockHeader) (hnn : host.IsNull block = false) :
    ((checkBlock poa host c block).1 = true ↔
        host.GetHash block = host.hashGenesisBlock ∨
          ∃ (P : CBlockIndex) (k : CKeyID) (c1 : MinerCache) (l : List CKeyID) (j t : Nat),
            host.mapBlockIndex block.hashPrevBlock = some P ∧
            getBlockMinerHeader host c block = (some k, c1) ∧
            (getNextBlockMinerList poa host c1 (some P)).1 = some l ∧
            l[j]? = some k ∧
            (canMineNextBlock poa host c1 k (some P)).1 = some t ∧ t ≤ block.nTime) ∧
      (∀ P k c1, host.GetHash block ≠ host.hashGenesisBlock →
        host.mapBlockIndex block.hashPrevBlock = some P →
        getBlockMinerHeader host c block = (some k, c1) →
        HashesDistinct P → CacheSound poa host c1 P → k ∉ poa._miner_list →
        (checkBlock poa host c block).1 = false) ∧
      (checkBlock Scenario.poa Scenario.host MinerCache.empty Scenario.headerD1045).1 =
        false ∧
      (checkBlock Scenario.poa Scenario.host MinerCache.empty Scenario.headerD1046).1 =
        true := by
  refine ⟨?_, ?_, by decide, by decide⟩
  · rw [checkBlock_fst]
    simp only [hnn, true_and]
    constructor
    · rintro (h | ⟨P, k, c1, t, hP, hk, ht, hle⟩)
      · exact Or.inl h
      · obtain ⟨_, l, hl, hin, _⟩ := canMineNextBlock_some ht
        obtain ⟨j, hj⟩ := List.mem_iff_getElem?.mp hin
        exact Or.inr ⟨P, k, c1, l, j, t, hP, hk, hl, hj, ht, hle⟩
    · rintro (h | ⟨P, k, c1, l, j, t, hP, hk, _, _, ht, hle⟩)
      · exact Or.inl h
      · exact Or.inr ⟨P, k, c1, t, hP, hk, ht, hle⟩
  · intro P k c1 hng hP hk hd hs hnot
    rw [Bool.eq_false_iff]
    intro hacc
    obtain ⟨_, h⟩ := (checkBlock_fst poa host c block).mp hacc
    rcases h with h | ⟨P1, k1, c2, t, hP1, hk1, ht, _⟩
    · exact hng h
    · rw [hP, Option.some.injEq] at hP1
      subst hP1
      rw [hk, Prod.mk.injEq, Option.some.injEq] at hk1
      obtain ⟨rfl, rfl⟩ := hk1
      obtain ⟨_, l, hl, hin, _⟩ := canMineNextBlock_some ht
      rw [(getNextBlockMinerList_sound hd hs P (CBlockIndex.self_mem_chain P)).1] at hl
      exact hnot (nextMinersSpec_subset hl k hin)

theorem checkBlock_accepts_iff_witness :
    Scenario.host.IsNull Scenario.headerD1045 = false ∧
      ((checkBlock Scenario.poa Scenario.host MinerCache.empty Scenario.headerD1045).1 =
          true ↔
        Scenario.host.GetHash Scenario.headerD1045 = Scenario.host.hashGenesisBlock ∨
          ∃ (P : CBlockIndex) (k : CKeyID) (c1 : MinerCache) (l : List CKeyID) (j t : Nat),
            Scenario.host.mapBlockIndex Scenario.headerD1045.hashPrevBlock = some P ∧
            getBlockMinerHeader Scenario.host MinerCache.empty Scenario.headerD1045 =
              (some k, c1) ∧
            (getNextBlockMinerList Scenario.poa Scenario.host c1 (some P)).1 = some l ∧
            l[j]? = some k ∧
            (canMineNextBlock Scenario.poa Scenario.host c1 k (some P)).1 = some t ∧
            t ≤ Scenario.headerD1045.nTime) ∧
      (canMineNextBlock Scenario.poa Scenario.host MinerCache.empty Scenario.D
        (some Scenario.blockC)).1 = some 1046 :=
  ⟨rfl,
    (checkBlock_accepts_iff Scenario.poa Scenario.host MinerCache.empty
      Scenario.headerD1045 rfl).1,
    by decide⟩

/-! ## Validated chains (C1) -/

theorem headerProducer_eq (host : Host) (block : CBlockHeader) :
    headerProducer host block = (getBlockMinerPubKey host block).map host.GetID := by
  unfold headerProducer getBlockMinerHeader
  by_cases hn : (host.IsNull block || block.vchBlockSig.length == 0) = true
  · simp only [hn, if_true]
    unfold getBlockMinerPubKey
    rw [if_pos hn]; rfl
  · simp only [hn, if_false, MinerCache.readBlockMinerFromCache, MinerCache.empty]
    cases getBlockMinerPubKey host block <;> rfl

theorem headerProducer_of_producerOf {host : Host} {b : CBlockIndex} {k : CKeyID}
    (h : producerOf host b = some k) :
    headerProducer host (host.GetBlockHeader b) = some k := by
  rw [producerOf_eq] at h
  rw [headerProducer_eq]
  cases hh : b.phashBlock with
  | none => rw [hh] at h; exact Option.noConfusion h
  | some hash =>
    rw [hh] at h
    simp only at h
    by_cases hs : (b.vchBlockSig.length == 0) = true
    · rw [if_pos hs] at h; exact Option.noConfusion h
    · rw [if_neg hs] at h; exact h

/-- The header overload of `getBlockMiner` returns the recovered producer when the cached
producer of the header's hash, if any, is the recovered one; the cache it leaves is the
old one, possibly extended by that producer under the header's hash. -/
theorem getBlockMinerHeader_sound {host : Host} {c : MinerCache} {block : CBlockHeader}
    (hc : ∀ k, c.block_miner (host.GetHash block) = some k →
      headerProducer host block = some k) :
    (getBlockMinerHeader host c block).1 = headerProducer host block ∧
      ((getBlockMinerHeader host c block).2 = c ∨
        ∃ k, headerProducer host block = some k ∧
          (getBlockMinerHeader host c block).2 =
            c.writeBlockMinerToCache (host.GetHash block) k) := by
  have hp := headerProducer_eq host block
  unfold getBlockMinerHeader
  by_cases hn : (host.IsNull block || block.vchBlockSig.length == 0) = true
  · rw [if_pos hn]
    refine ⟨?_, Or.inl rfl⟩
    rw [hp]
    unfold getBlockMinerPubKey
    rw [if_pos hn]; rfl
  · rw [if_neg hn]
    simp only
    cases hr : c.readBlockMinerFromCache (host.GetHash block) with
    | some keyid => exact ⟨(hc keyid hr).symm, Or.inl rfl⟩
    | none =>
      simp only
      cases hg : getBlockMinerPubKey host block with
      | none =>
        rw [hg] at hp
        exact ⟨hp.symm, Or.inl rfl⟩
      | some pubkey =>
        rw [hg] at hp
        exact ⟨hp.symm, Or.inr ⟨_, hp, rfl⟩⟩

theorem cacheSound_writeBlockMiner_fresh {poa : BasicPoa} {host : Host} {c : MinerCache}
    {P : CBlockIndex} {h : uint256} (k : CKeyID) (hs : CacheSound poa host c P)
    (hfresh : ∀ b ∈ P.chain, b.phashBlock ≠ some h) :
    CacheSound poa host (c.writeBlockMinerToCache h k) P := by
  intro x hx h1 hx1
  refine ⟨?_, (hs x hx h1 hx1).2⟩
  intro k1 hk1
  simp only [MinerCache.writeBlockMinerToCache] at hk1
  by_cases e : h1 = h
  · subst e
    exact absurd hx1 (hfresh x hx)
  · rw [if_neg e] at hk1
    exact (hs x hx h1 hx1).1 k1 hk1

theorem recentBlocks_genesis (w : Nat) (h : Option uint256) (t : Nat) (s : List Nat) :
    recentBlocks w (CBlockIndex.genesis h t s) = [] := by
  cases w <;> rfl

/-- One validated step: the header of an accepted entry has a recovered producer, and
every block of the window walked back from the parent has a recovered producer different
from it. -/
theorem accepted_step {poa : BasicPoa} {host : Host} {h : Option uint256} {t : Nat}
    {s : List Nat} {P : CBlockIndex} (hd : HashesDistinct (CBlockIndex.child h t s P))
    (hacc : AcceptedChain poa host (CBlockIndex.child h t s P)) :
    ∃ k, headerProducer host (host.GetBlockHeader (CBlockIndex.child h t s P)) = some k ∧
      ∀ b ∈ recentBlocks (poa._miner_list.length / 2) P,
        ∃ k1, producerOf host b = some k1 ∧ k1 ≠ k := by
  obtain ⟨_, hh, hng, hmap, c, hs, hchk⟩ := hacc
  have hBh : (CBlockIndex.child h t s P).phashBlock =
      some (host.GetHash (host.GetBlockHeader (CBlockIndex.child h t s P))) := hh
  have hfresh : ∀ b ∈ P.chain, b.phashBlock ≠
      some (host.GetHash (host.GetBlockHeader (CBlockIndex.child h t s P))) := by
    intro b hb e
    unfold HashesDistinct at hd
    rw [CBlockIndex.chain_child, List.pairwise_cons] at hd
    rcases hd.1 b hb with h1 | h1
    · exact h1 (hBh.trans e.symm)
    · rw [hBh] at h1; exact Option.noConfusion h1
  have hc : ∀ k, c.block_miner
      (host.GetHash (host.GetBlockHeader (CBlockIndex.child h t s P))) = some k →
      headerProducer host (host.GetBlockHeader (CBlockIndex.child h t s P)) = some k :=
    fun k hk => headerProducer_of_producerOf
      ((hs _ (CBlockIndex.self_mem_chain _) _ hBh).1 k hk)
  have hsP : CacheSound poa host c P :=
    cacheSound_of_mem hs
      (by rw [CBlockIndex.chain_child]
          exact List.mem_cons_of_mem _ (CBlockIndex.self_mem_chain P))
  have hdP : HashesDistinct P := by
    unfold HashesDistinct at hd ⊢
    rw [CBlockIndex.chain_child, List.pairwise_cons] at hd
    exact hd.2
  obtain ⟨_, hor⟩ := (checkBlock_fst poa host c _).mp hchk
  rcases hor with hg | ⟨P1, k, c1, t1, hP1, hk, ht, _⟩
  · exact absurd hg hng
  · rw [hmap, Option.some.injEq] at hP1
    subst hP1
    obtain ⟨hres, hcache⟩ := getBlockMinerHeader_sound hc
    rw [hk] at hres hcache
    simp only at hres hcache
    have hs1 : CacheSound poa host c1 P := by
      rcases hcache with e | ⟨k2, _, e⟩
      · rw [e]; exact hsP
      · rw [e]; exact cacheSound_writeBlockMiner_fresh k2 hsP hfresh
    refine ⟨k, hres.symm, ?_⟩
    obtain ⟨_, l, hl, hin, _⟩ := canMineNextBlock_some ht
    rw [(getNextBlockMinerList_sound hdP hs1 P (CBlockIndex.self_mem_chain P)).1] at hl
    intro b hb
    cases hPP : P with
    | genesis h0 t0 s0 =>
      rw [hPP, recentBlocks_genesis] at hb
      exact absurd hb (List.not_mem_nil b)
    | child h0 t0 s0 Q =>
      have hT : P.pprev ≠ none := by
        rw [hPP]; exact fun e => Option.noConfusion e
      obtain ⟨p, _, _, hall, hlist⟩ := nextMinersSpec_child hT hl
      obtain ⟨k1, hk1⟩ := hall b hb
      refine ⟨k1, hk1, ?_⟩
      rintro rfl
      rw [hlist, List.mem_filter, mem_eligibleSet] at hin
      exact hin.2.2 ⟨b, hb, hk1⟩

theorem CBlockIndex.height_le_of_mem {P b : CBlockIndex} (hb : b ∈ P.chain) :
    b.height ≤ P.height := by
  induction P with
  | genesis h t s =>
    simp only [CBlockIndex.chain, List.mem_singleton] at hb
    subst hb; exact le_refl _
  | child h t s Q ih =>
    rw [CBlockIndex.chain_child, List.mem_cons] at hb
    rcases hb with rfl | hb
    · exact le_refl _
    · exact le_trans (ih hb) (Nat.le_succ _)

theorem mem_recentBlocks_of_height :
    ∀ (w : Nat) (P b : CBlockIndex), b ∈ P.chain → b.pprev ≠ none →
      P.height < b.height + w → b ∈ recentBlocks w P := by
  intro w
  induction w with
  | zero =>
    intro P b hb _ hlt
    have := CBlockIndex.height_le_of_mem hb
    omega
  | succ w ih =>
    intro P b hb hne hlt
    cases P with
    | genesis h t s =>
      simp only [CBlockIndex.chain, List.mem_singleton] at hb
      subst hb
      exact absurd rfl hne
    | child h t s Q =>
      rw [CBlockIndex.chain_child, List.mem_cons] at hb
      rcases hb with rfl | hb
      · simp [recentBlocks]
      · simp only [recentBlocks, List.mem_cons]
        right
        apply ih Q b hb hne
        simp only [CBlockIndex.height] at hlt
        omega

theorem CBlockIndex.chain_total {T b1 b2 : CBlockIndex} (h1 : b1 ∈ T.chain)
    (h2 : b2 ∈ T.chain) : b2 ∈ b1.chain ∨ b1 ∈ b2.chain := by
  induction T with
  | genesis h t s =>
    simp only [CBlockIndex.chain, List.mem_singleton] at h1 h2
    subst h1; subst h2
    exact Or.inl (CBlockIndex.self_mem_chain _)
  | child h t s Q ih =>
    rw [CBlockIndex.chain_child, List.mem_cons] at h1 h2
    rcases h1 with rfl | h1
    · left
      rw [CBlockIndex.chain_child, List.mem_cons]
      exact h2
    · rcases h2 with rfl | h2
      · right
        rw [CBlockIndex.chain_child]
        exact List.mem_cons_of_mem _ h1
      · exact ih h1 h2

theorem acceptedChain_of_mem {poa : BasicPoa} {host : Host} {T b : CBlockIndex}
    (hacc : AcceptedChain poa host T) (hb : b ∈ T.chain) : AcceptedChain poa host b := by
  induction T with
  | genesis h t s =>
    simp only [CBlockIndex.chain, List.mem_singleton] at hb
    subst hb; exact hacc
  | child h t s Q ih =>
    rw [CBlockIndex.chain_child, List.mem_cons] at hb
    rcases hb with rfl | hb
    · exact hacc
    · exact ih hacc.1 hb

/-- Two blocks of a validated chain, the older one inside the window of the newer one's
parent, have different recovered producers. -/
theorem window_pair {poa : BasicPoa} {host : Host} {b1 b2 : CBlockIndex}
    (hd : HashesDistinct b1) (hacc : AcceptedChain poa host b1)
    (hmem : b2 ∈ b1.chain) (hne : b1 ≠ b2) (h2 : b2.pprev ≠ none)
    (hw : b1.height ≤ b2.height + poa._miner_list.length / 2) :
    ∃ k1 k2, headerProducer host (host.GetBlockHeader b1) = some k1 ∧
      headerProducer host (host.GetBlockHeader b2) = some k2 ∧ k1 ≠ k2 := by
  cases b1 with
  | genesis h t s =>
    simp only [CBlockIndex.chain, List.mem_singleton] at hmem
    exact absurd hmem.symm hne
  | child h t s P =>
    rw [CBlockIndex.chain_child, List.mem_cons] at hmem
    rcases hmem with rfl | hmem
    · exact absurd rfl hne
    · obtain ⟨k, hk, hall⟩ := accepted_step hd hacc
      have hin : b2 ∈ recentBlocks (poa._miner_list.length / 2) P := by
        apply mem_recentBlocks_of_height _ P b2 hmem h2
        simp only [CBlockIndex.height] at hw
        omega
      obtain ⟨k2, hk2, hne2⟩ := hall b2 hin
      exact ⟨k, k2, hk, headerProducer_of_producerOf hk2, fun e => hne2 e.symm⟩

theorem Scenario.accepted : AcceptedChain Scenario.poa Scenario.host Scenario.blockC :=
  ⟨⟨⟨trivial, rfl, by decide, rfl, MinerCache.empty, cacheSound_empty _ _ _, by decide⟩,
      rfl, by decide, rfl, MinerCache.empty, cacheSound_empty _ _ _, by decide⟩,
    rfl, by decide, rfl, MinerCache.empty, cacheSound_empty _ _ _, by decide⟩

/-- C1: in a chain in which every non-genesis block was accepted by `checkBlock` against
its parent (caches agreeing with signature recovery, block hashes pairwise distinct), any
two distinct non-genesis blocks whose heights differ by at most `n / 2` have recovered
producers, and these differ: no key produces two blocks within `n / 2 + 1` consecutive
blocks. -/
theorem no_producer_twice_in_window (poa : BasicPoa) (host : Host) (T : CBlockIndex)
    (hd : HashesDistinct T) (hacc : AcceptedChain poa host T) (b1 b2 : CBlockIndex)
    (h1 : b1 ∈ T.chain) (h2 : b2 ∈ T.chain) (hne : b1 ≠ b2)
    (hp1 : b1.pprev ≠ none) (hp2 : b2.pprev ≠ none)
    (hw1 : b1.height ≤ b2.height + poa._miner_list.length / 2)
    (hw2 : b2.height ≤ b1.height + poa._miner_list.length / 2) :
    ∃ k1 k2, headerProducer host (host.GetBlockHeader b1) = some k1 ∧
      headerProducer host (host.GetBlockHeader b2) = some k2 ∧ k1 ≠ k2 := by
  rcases CBlockIndex.chain_total h1 h2 with hm | hm
  · exact window_pair (hashesDistinct_of_mem hd h1) (acceptedChain_of_mem hacc h1) hm hne hp2 hw1
  · obtain ⟨k2, k1, hk2, hk1, hk⟩ :=
      window_pair (hashesDistinct_of_mem hd h2) (acceptedChain_of_mem hacc h2) hm (fun e => hne e.symm) hp1 hw2
    exact ⟨k1, k2, hk1, hk2, fun e => hk e.symm⟩

theorem no_producer_twice_in_window_witness :
    HashesDistinct Scenario.blockC ∧
      AcceptedChain Scenario.poa Scenario.host Scenario.blockC ∧
      Scenario.blockC ∈ Scenario.blockC.chain ∧ Scenario.blockA ∈ Scenario.blockC.chain ∧
      Scenario.blockC ≠ Scenario.blockA ∧
      Scenario.blockC.pprev ≠ none ∧ Scenario.blockA.pprev ≠ none ∧
      Scenario.blockC.height ≤ Scenario.blockA.height + Scenario.poa._miner_list.length / 2 ∧
      Scenario.blockA.height ≤ Scenario.blockC.height + Scenario.poa._miner_list.length / 2 ∧
      ∃ k1 k2,
        headerProducer Scenario.host (Scenario.host.GetBlockHeader Scenario.blockC) =
          some k1 ∧
        headerProducer Scenario.host (Scenario.host.GetBlockHeader Scenario.blockA) =
          some k2 ∧ k1 ≠ k2 :=
  ⟨Scenario.hashesDistinct, Scenario.accepted, by decide, by decide, by decide, by decide,
    by decide, by decide, by decide,
    no_producer_twice_in_window Scenario.poa Scenario.host Scenario.blockC
      Scenario.hashesDistinct Scenario.accepted Scenario.blockC Scenario.blockA
      (by decide) (by decide) (by decide) (by decide) (by decide) (by decide) (by decide)⟩

/-! ## Cache transparency (C11) -/

theorem cacheSound_of_entries {poa : BasicPoa} {host : Host} {c c1 : MinerCache}
    {T : CBlockIndex} (hs : CacheSound poa host c T)
    (hb : ∀ h k, c1.block_miner h = some k → c.block_miner h = some k)
    (hn : ∀ h l, c1.next_miners h = some l → c.next_miners h = some l) :
    CacheSound poa host c1 T :=
  fun b hbT h hh =>
    ⟨fun k hk => (hs b hbT h hh).1 k (hb h k hk),
      fun l hl hp => (hs b hbT h hh).2 l (hn h l hl) hp⟩

/-- C11: for every tip and every content of the two caches that agrees with the uncached
computation, `getNextBlockMinerList` returns the same success flag and the same list as
with both caches empty, and leaves caches that again agree with the uncached computation;
in particular dropping any entries from such caches does not change the result. A null
tip fails from every cache. -/
theorem cache_transparency (poa : BasicPoa) (host : Host) (c : MinerCache)
    (T : CBlockIndex) (hd : HashesDistinct T) (hs : CacheSound poa host c T) :
    (getNextBlockMinerList poa host c (some T)).1 =
        (getNextBlockMinerList poa host MinerCache.empty (some T)).1 ∧
      CacheSound poa host (getNextBlockMinerList poa host c (some T)).2 T ∧
      (∀ c1 : MinerCache,
        (∀ h k, c1.block_miner h = some k → c.block_miner h = some k) →
        (∀ h l, c1.next_miners h = some l → c.next_miners h = some l) →
        (getNextBlockMinerList poa host c1 (some T)).1 =
          (getNextBlockMinerList poa host c (some T)).1) ∧
      getNextBlockMinerList poa host c none = (none, c) := by
  have h1 := getNextBlockMinerList_sound hd hs T (CBlockIndex.self_mem_chain T)
  refine ⟨?_, h1.2, ?_, rfl⟩
  · rw [h1.1, getNextBlockMinerList_empty hd]
  · intro c1 hb hn
    rw [h1.1, (getNextBlockMinerList_sound hd (cacheSound_of_entries hs hb hn) T
      (CBlockIndex.self_mem_chain T)).1]

theorem Scenario.warmCacheSound :
    CacheSound Scenario.poa Scenario.host Scenario.warmCache Scenario.blockC :=
  (getNextBlockMinerList_sound Scenario.hashesDistinct (cacheSound_empty _ _ _)
    Scenario.blockC (CBlockIndex.self_mem_chain _)).2

theorem cache_transparency_witness :
    HashesDistinct Scenario.blockC ∧
      CacheSound Scenario.poa Scenario.host Scenario.warmCache Scenario.blockC ∧
      Scenario.warmCache.next_miners 103 = some [Scenario.D, Scenario.A] ∧
      Scenario.warmCache.block_miner 102 = some Scenario.B ∧
      (getNextBlockMinerList Scenario.poa Scenario.host Scenario.warmCache
          (some Scenario.blockC)).1 =
        (getNextBlockMinerList Scenario.poa Scenario.host MinerCache.empty
          (some Scenario.blockC)).1 ∧
      CacheSound Scenario.poa Scenario.host
        (getNextBlockMinerList Scenario.poa Scenario.host Scenario.warmCache
          (some Scenario.blockC)).2 Scenario.blockC :=
  have h := cache_transparency Scenario.poa Scenario.host Scenario.warmCache
    Scenario.blockC Scenario.hashesDistinct Scenario.warmCacheSound
  ⟨Scenario.hashesDistinct, Scenario.warmCacheSound, by decide, by decide, h.1, h.2.1⟩

/-! ## Failure cases of the scheduler (C15) -/

/-- C15: `canMineNextBlock(miner, T)` returns false when the tip is null or has no hash
(from any caches), and, from caches that agree with the uncached computation, when the
recovery of the producer of a block of the tip's recent window fails and when the miner
is not a member of the eligible set of the tip. -/
theorem canMineNextBlock_not_eligible (poa : BasicPoa) (host : Host) (c : MinerCache)
    (miner : CKeyID) (T : CBlockIndex) (hr : RosterInv poa) (hd : HashesDistinct T)
    (hs : CacheSound poa host c T) :
    (canMineNextBlock poa host c miner none).1 = none ∧
      (T.phashBlock = none → (canMineNextBlock poa host c miner (some T)).1 = none) ∧
      ((∃ b ∈ recentBlocks (poa._miner_list.length / 2) T, producerOf host b = none) →
        (canMineNextBlock poa host c miner (some T)).1 = none) ∧
      ((eligibleSet poa host T).contains miner = false →
        (canMineNextBlock poa host c miner (some T)).1 = none) := by
  have hlist := (getNextBlockMinerList_sound hd hs T (CBlockIndex.self_mem_chain T)).1
  refine ⟨rfl, ?_, ?_, ?_⟩
  · intro hh
    simp [canMineNextBlock, hh]
  · rintro ⟨b, hb, hbn⟩
    rw [canMineNextBlock_fst, hlist]
    by_cases hm : miner = 0
    · rw [if_pos hm]
    · rw [if_neg hm]
      cases hn : nextMinersSpec poa host T with
      | none => rfl
      | some l =>
        exfalso
        cases T with
        | genesis h t s =>
          rw [recentBlocks_genesis] at hb
          exact List.not_mem_nil b hb
        | child h t s P =>
          obtain ⟨_, _, _, hall, _⟩ :=
            nextMinersSpec_child (by simp [CBlockIndex.pprev]) hn
          obtain ⟨k, hk⟩ := hall b hb
          rw [hbn] at hk
          exact Option.noConfusion hk
  · intro hE
    rw [canMineNextBlock_fst, hlist]
    by_cases hm : miner = 0
    · rw [if_pos hm]
    · rw [if_neg hm]
      cases hn : nextMinersSpec poa host T with
      | none => rfl
      | some l =>
        have hnot : miner ∉ l := by
          intro hin
          have hE1 : ¬ ((eligibleSet poa host T).contains miner = true) := by
            rw [hE]; exact Bool.false_ne_true
          apply hE1
          cases T with
          | genesis h t s =>
            rw [mem_eligibleSet, recentBlocks_genesis, hr.2]
            refine ⟨nextMinersSpec_subset hn miner hin, ?_⟩
            rintro ⟨b, hb, _⟩
            exact List.not_mem_nil b hb
          | child h t s P =>
            obtain ⟨_, _, _, _, hl⟩ :=
              nextMinersSpec_child (by simp [CBlockIndex.pprev]) hn
            rw [hl, List.mem_filter] at hin
            exact hin.2
        simp only [if_neg hnot]

theorem Scenario.hashesDistinctU : HashesDistinct Scenario.unsigned := by
  unfold HashesDistinct; decide

theorem canMineNextBlock_not_eligible_witness :
    RosterInv Scenario.poa ∧ HashesDistinct Scenario.unsigned ∧
      CacheSound Scenario.poa Scenario.host MinerCache.empty Scenario.unsigned ∧
      (∃ b ∈ recentBlocks (Scenario.poa._miner_list.length / 2) Scenario.unsigned,
        producerOf Scenario.host b = none) ∧
      (canMineNextBlock Scenario.poa Scenario.host MinerCache.empty Scenario.D
        (some Scenario.unsigned)).1 = none ∧
      (eligibleSet Scenario.poa Scenario.host Scenario.blockC).contains Scenario.B = false ∧
      (canMineNextBlock Scenario.poa Scenario.host MinerCache.empty Scenario.B
        (some Scenario.blockC)).1 = none :=
  have hex : ∃ b ∈ recentBlocks (Scenario.poa._miner_list.length / 2) Scenario.unsigned,
      producerOf Scenario.host b = none := ⟨Scenario.unsigned, by decide, by decide⟩
  ⟨Scenario.rosterInv, Scenario.hashesDistinctU, cacheSound_empty _ _ _, hex,
    (canMineNextBlock_not_eligible Scenario.poa Scenario.host MinerCache.empty Scenario.D
      Scenario.unsigned Scenario.rosterInv Scenario.hashesDistinctU
      (cacheSound_empty _ _ _)).2.2.1 hex,
    by decide,
    (canMineNextBlock_not_eligible Scenario.poa Scenario.host MinerCache.empty Scenario.B
      Scenario.blockC Scenario.rosterInv Scenario.hashesDistinct
      (cacheSound_empty _ _ _)).2.2.2 (by decide)⟩

/-! ## Producer and validator agree on timing (C18) -/

/-- A second call of `getNextBlockMinerList` on the same tip, from the caches the first
successful call left, returns the same list and leaves the caches as they are. -/
theorem getNextBlockMinerList_idem (poa : BasicPoa) (host : Host) (c c1 : MinerCache)
    (T : CBlockIndex) (l : List CKeyID)
    (h : getNextBlockMinerList poa host c (some T) = (some l, c1)) :
    getNextBlockMinerList poa host c1 (some T) = (some l, c1) := by
  cases T with
  | genesis h0 t s =>
    cases h0 with
    | none => simp [getNextBlockMinerList, CBlockIndex.phashBlock] at h
    | some hash =>
      simp only [getNextBlockMinerList, CBlockIndex.phashBlock, CBlockIndex.pprev,
        Prod.mk.injEq, Option.some.injEq] at h ⊢
      exact ⟨h.1, trivial⟩
  | child h0 t s P =>
    cases h0 with
    | none => simp [getNextBlockMinerList, CBlockIndex.phashBlock] at h
    | some hash =>
      simp only [getNextBlockMinerList, CBlockIndex.phashBlock, CBlockIndex.pprev,
        MinerCache.readNextBlockMinerListFromCache] at h ⊢
      cases hc : c.next_miners hash with
      | some l0 =>
        rw [hc] at h
        simp only [Prod.mk.injEq, Option.some.injEq] at h
        obtain ⟨rfl, rfl⟩ := h
        rw [hc]
      | none =>
        rw [hc] at h
        simp only at h
        cases hg : getNextBlockMinerSet poa host c
            (some (CBlockIndex.child (some hash) t s P)) with
        | mk r c2 =>
          rw [hg] at h
          cases r with
          | none => simp at h
          | some next_set =>
            simp only at h
            cases hg2 : getBlockMinerIndex host c2
                (some (CBlockIndex.child (some hash) t s P)) with
            | mk r2 c3 =>
              rw [hg2] at h
              cases r2 with
              | none => simp at h
              | some current_miner =>
                simp only at h
                by_cases hi : poa._miner_list.indexOf current_miner = poa._miner_list.length
                · rw [if_pos hi] at h; simp at h
                · rw [if_neg hi] at h
                  cases ho : orderLoop poa._miner_list next_set
                      (poa._miner_list.indexOf current_miner) poa._miner_list.length
                      (poa._miner_list.indexOf current_miner) [] with
                  | none => rw [ho] at h; simp at h
                  | some l1 =>
                    rw [ho] at h
                    simp only [Prod.mk.injEq, Option.some.injEq] at h
                    obtain ⟨rfl, rfl⟩ := h
                    simp [MinerCache.writeNextBlockMinerListToCache]

theorem canMineNextBlock_pair {poa : BasicPoa} {host : Host} {c c1 : MinerCache}
    {miner : CKeyID} {T : CBlockIndex} {t : Nat}
    (h : canMineNextBlock poa host c miner (some T) = (some t, c1)) :
    miner ≠ 0 ∧ T.phashBlock ≠ none ∧
      ∃ l, getNextBlockMinerList poa host c (some T) = (some l, c1) ∧ miner ∈ l ∧
        t = assignedTime poa T.nTime (l.indexOf miner) := by
  simp only [canMineNextBlock] at h
  by_cases hg : miner = 0 ∨ T.phashBlock = none
  · rw [if_pos hg] at h; simp at h
  · rw [if_neg hg] at h
    push_neg at hg
    refine ⟨hg.1, hg.2, ?_⟩
    cases hl : getNextBlockMinerList poa host c (some T) with
    | mk r c2 =>
      rw [hl] at h
      cases r with
      | none => simp at h
      | some l =>
        simp only at h
        by_cases hin : l.contains miner = true
        · rw [if_pos hin] at h
          simp only [Prod.mk.injEq, Option.some.injEq] at h
          obtain ⟨h1, rfl⟩ := h
          exact ⟨l, rfl, by simpa using hin, h1.symm⟩
        · rw [if_neg hin] at h; simp at h

theorem canMineNextBlock_of_list {poa : BasicPoa} {host : Host} {c c1 : MinerCache}
    {miner : CKeyID} {T : CBlockIndex} {l : List CKeyID} (hm : miner ≠ 0)
    (hh : T.phashBlock ≠ none)
    (hl : getNextBlockMinerList poa host c (some T) = (some l, c1)) (hin : miner ∈ l) :
    canMineNextBlock poa host c miner (some T) =
      (some (assignedTime poa T.nTime (l.indexOf miner)), c1) := by
  have hg : ¬ (miner = 0 ∨ T.phashBlock = none) := by
    push_neg; exact ⟨hm, hh⟩
  have hc : l.contains miner = true := by simpa using hin
  simp only [canMineNextBlock, if_neg hg, hl, hc, if_true, assignedTime]

theorem canMineNextBlockSelf_pair {poa : BasicPoa} {host : Host} {c c1 : MinerCache}
    {now : Int} {T : CBlockIndex} {t : Nat}
    (h : canMineNextBlockSelf poa host c now (some T) = (some t, c1)) :
    ∃ a, canMineNextBlock poa host c poa._miner (some T) = (some a, c1) ∧
      t = max a (now % 2 ^ 32).toNat := by
  simp only [canMineNextBlockSelf] at h
  by_cases hh : T.phashBlock = none
  · rw [if_pos hh] at h; simp at h
  · rw [if_neg hh] at h
    cases hg : canMineNextBlock poa host c poa._miner (some T) with
    | mk r c2 =>
      rw [hg] at h
      cases r with
      | none => simp at h
      | some a =>
        simp only at h
        refine ⟨a, ?_⟩
        by_cases hlt : a < (now % 2 ^ 32).toNat
        · rw [if_pos hlt] at h
          simp only [Prod.mk.injEq, Option.some.injEq] at h
          obtain ⟨rfl, rfl⟩ := h
          exact ⟨rfl, (max_eq_right (le_of_lt hlt)).symm⟩
        · rw [if_neg hlt] at h
          simp only [Prod.mk.injEq, Option.some.injEq] at h
          obtain ⟨rfl, rfl⟩ := h
          exact ⟨rfl, (max_eq_left (not_lt.mp hlt)).symm⟩

/-- C18: for every tip, clock value, interval and timeout (no bound on the values, so
also when the 32-bit sum wraps), if the two-argument `canMineNextBlock(T)` returns true
with time `t`, then the three-argument `canMineNextBlock(_miner, T)` returns true with an
assigned time `a <= t`, from the same caches and from the caches the call left; and from
any caches that agree with the uncached computation a header of the local miner on parent
`T` stamped with `t` is accepted by `checkBlock`. -/
theorem producer_validator_agree (poa : BasicPoa) (host : Host) (c c1 : MinerCache)
    (now : Int) (T : CBlockIndex) (t : Nat)
    (h : canMineNextBlockSelf poa host c now (some T) = (some t, c1)) :
    ∃ a, canMineNextBlock poa host c poa._miner (some T) = (some a, c1) ∧ a ≤ t ∧
      t = max a (now % 2 ^ 32).toNat ∧
      canMineNextBlock poa host c1 poa._miner (some T) = (some a, c1) ∧
      ∀ (block : CBlockHeader) (c0 c2 : MinerCache), HashesDistinct T →
        CacheSound poa host c T → CacheSound poa host c2 T →
        host.IsNull block = false → host.mapBlockIndex block.hashPrevBlock = some T →
        getBlockMinerHeader host c0 block = (some poa._miner, c2) → block.nTime = t →
        (checkBlock poa host c0 block).1 = true := by
  obtain ⟨a, ha, hmax⟩ := canMineNextBlockSelf_pair h
  obtain ⟨hm, hh, l, hl, hin, hat⟩ := canMineNextBlock_pair ha
  have hle : a ≤ t := by rw [hmax]; exact le_max_left _ _
  refine ⟨a, ha, hle, hmax, ?_, ?_⟩
  · rw [canMineNextBlock_of_list hm hh (getNextBlockMinerList_idem poa host c c1 T l hl) hin,
      hat]
  · intro block c0 c2 hd hs hs2 hnn hmap hk hnt
    rw [checkBlock_fst]
    refine ⟨hnn, Or.inr ⟨T, poa._miner, c2, a, hmap, hk, ?_, by rw [hnt]; exact hle⟩⟩
    have e1 := canMineNextBlock_fst poa host c poa._miner T
    have e2 := canMineNextBlock_fst poa host c2 poa._miner T
    rw [(getNextBlockMinerList_sound hd hs T (CBlockIndex.self_mem_chain T)).1] at e1
    rw [(getNextBlockMinerList_sound hd hs2 T (CBlockIndex.self_mem_chain T)).1] at e2
    rw [e2, ← e1, ha]

theorem producer_validator_agree_witness :
    canMineNextBlockSelf Scenario.wide Scenario.host MinerCache.empty 500
        (some Scenario.blockC) =
      (some 1035, (canMineNextBlockSelf Scenario.wide Scenario.host MinerCache.empty 500
        (some Scenario.blockC)).2) ∧
      ∃ a, (canMineNextBlock Scenario.wide Scenario.host MinerCache.empty
          Scenario.wide._miner (some Scenario.blockC)).1 = some a ∧ a ≤ 1035 :=
  have h : canMineNextBlockSelf Scenario.wide Scenario.host MinerCache.empty 500
        (some Scenario.blockC) =
      (some 1035, (canMineNextBlockSelf Scenario.wide Scenario.host MinerCache.empty 500
        (some Scenario.blockC)).2) := Prod.ext (by decide) rfl
  ⟨h, (producer_validator_agree Scenario.wide Scenario.host MinerCache.empty _ 500
    Scenario.blockC 1035 h).elim (fun a ha => ⟨a, congrArg Prod.fst ha.1, ha.2.1⟩)⟩

/-! ## The list is never empty (C19) -/

theorem recentBlocks_length_le : ∀ (w : Nat) (T : CBlockIndex),
    (recentBlocks w T).length ≤ w := by
  intro w
  induction w with
  | zero => intro T; rw [recentBlocks_zero]; exact le_refl _
  | succ w ih =>
    intro T
    cases T with
    | genesis h t s => simp [recentBlocks]
    | child h t s P =>
      simp only [recentBlocks, List.length_cons]
      exact Nat.succ_le_succ (ih P)

/-- C19: for a roster of size `n >= 1` and a non-genesis tip, whenever
`getNextBlockMinerList` succeeds the returned list has at least `n - n / 2` elements and
so is not empty: the recent window never excludes every authority. -/
theorem getNextBlockMinerList_length (poa : BasicPoa) (host : Host) (c : MinerCache)
    (T : CBlockIndex) (l : List CKeyID) (hr : RosterInv poa) (hd : HashesDistinct T)
    (hs : CacheSound poa host c T) (hT : T.pprev ≠ none)
    (hn : 1 ≤ poa._miner_list.length)
    (h : (getNextBlockMinerList poa host c (some T)).1 = some l) :
    poa._miner_list.length - poa._miner_list.length / 2 ≤ l.length ∧ l ≠ [] := by
  rw [(getNextBlockMinerList_sound hd hs T (CBlockIndex.self_mem_chain T)).1] at h
  obtain ⟨p, _, _, _, hl⟩ := nextMinersSpec_child hT h
  have hsplit := List.length_eq_length_filter_add
    (l := poa._miner_list.rotate (poa._miner_list.indexOf p + 1))
    (fun k => (eligibleSet poa host T).contains k)
  rw [List.length_rotate, ← hl] at hsplit
  have hnd : ((poa._miner_list.rotate (poa._miner_list.indexOf p + 1)).filter
      (fun k => !(eligibleSet poa host T).contains k)).Nodup :=
    (List.nodup_rotate.mpr hr.1).filter _
  have hsub : (poa._miner_list.rotate (poa._miner_list.indexOf p + 1)).filter
      (fun k => !(eligibleSet poa host T).contains k) ⊆
      (recentBlocks (poa._miner_list.length / 2) T).filterMap (producerOf host) := by
    intro k hk
    rw [List.mem_filter, List.mem_rotate] at hk
    obtain ⟨hkL, hkE⟩ := hk
    have hkE1 : ¬ ((eligibleSet poa host T).contains k = true) := by
      intro e; rw [e] at hkE; exact Bool.noConfusion hkE
    rw [mem_eligibleSet, hr.2] at hkE1
    rw [List.mem_filterMap]
    by_contra hc
    exact hkE1 ⟨hkL, hc⟩
  have hle := (List.subperm_of_subset hnd hsub).length_le
  have hle2 := List.length_filterMap_le (producerOf host)
    (recentBlocks (poa._miner_list.length / 2) T)
  have hle3 := recentBlocks_length_le (poa._miner_list.length / 2) T
  have hlen : poa._miner_list.length - poa._miner_list.length / 2 ≤ l.length := by omega
  refine ⟨hlen, ?_⟩
  intro he
  rw [he, List.length_nil] at hlen
  omega

theorem getNextBlockMinerList_length_witness :
    RosterInv Scenario.poa ∧ HashesDistinct Scenario.blockC ∧
      CacheSound Scenario.poa Scenario.host MinerCache.empty Scenario.blockC ∧
      Scenario.blockC.pprev ≠ none ∧ 1 ≤ Scenario.poa._miner_list.length ∧
      (recentBlocks (Scenario.poa._miner_list.length / 2) Scenario.blockC).map
          (producerOf Scenario.host) = [some Scenario.C, some Scenario.B] ∧
      (getNextBlockMinerList Scenario.poa Scenario.host MinerCache.empty
        (some Scenario.blockC)).1 = some [Scenario.D, Scenario.A] ∧
      Scenario.poa._miner_list.length - Scenario.poa._miner_list.length / 2 = 2 ∧
      (Scenario.poa._miner_list.length - Scenario.poa._miner_list.length / 2 ≤
        [Scenario.D, Scenario.A].length ∧ [Scenario.D, Scenario.A] ≠ []) :=
  ⟨Scenario.rosterInv, Scenario.hashesDistinct, cacheSound_empty _ _ _, by decide,
    by decide, by decide, by decide, by decide,
    getNextBlockMinerList_length Scenario.poa Scenario.host MinerCache.empty
      Scenario.blockC [Scenario.D, Scenario.A] Scenario.rosterInv Scenario.hashesDistinct
      (cacheSound_empty _ _ _) (by decide) (by decide) (by decide)⟩

/-! ## The scheduler on validated chains (C20) -/

/-- One validated step, list form: the header of an accepted entry has a recovered
producer, which is an element of the list the scheduler computes for the parent. -/
theorem accepted_step_list {poa : BasicPoa} {host : Host} {h : Option uint256} {t : Nat}
    {s : List Nat} {P : CBlockIndex} (hd : HashesDistinct (CBlockIndex.child h t s P))
    (hacc : AcceptedChain poa host (CBlockIndex.child h t s P)) :
    ∃ k l, headerProducer host (host.GetBlockHeader (CBlockIndex.child h t s P)) = some k ∧
      nextMinersSpec poa host P = some l ∧ k ∈ l := by
  obtain ⟨_, hh, hng, hmap, c, hs, hchk⟩ := hacc
  have hBh : (CBlockIndex.child h t s P).phashBlock =
      some (host.GetHash (host.GetBlockHeader (CBlockIndex.child h t s P))) := hh
  have hdc := hd
  unfold HashesDistinct at hdc
  rw [CBlockIndex.chain_child, List.pairwise_cons] at hdc
  have hfresh : ∀ b ∈ P.chain, b.phashBlock ≠
      some (host.GetHash (host.GetBlockHeader (CBlockIndex.child h t s P))) := by
    intro b hb e
    rcases hdc.1 b hb with h1 | h1
    · exact h1 (hBh.trans e.symm)
    · rw [hBh] at h1; exact Option.noConfusion h1
  have hc : ∀ k, c.block_miner
      (host.GetHash (host.GetBlockHeader (CBlockIndex.child h t s P))) = some k →
      headerProducer host (host.GetBlockHeader (CBlockIndex.child h t s P)) = some k :=
    fun k hk => headerProducer_of_producerOf
      ((hs _ (CBlockIndex.self_mem_chain _) _ hBh).1 k hk)
  have hsP : CacheSound poa host c P :=
    cacheSound_of_mem hs
      (by rw [CBlockIndex.chain_child]
          exact List.mem_cons_of_mem _ (CBlockIndex.self_mem_chain P))
  have hdP : HashesDistinct P := hdc.2
  obtain ⟨_, hor⟩ := (checkBlock_fst poa host c _).mp hchk
  rcases hor with hg | ⟨P1, k, c1, t1, hP1, hk, ht, _⟩
  · exact absurd hg hng
  · rw [hmap, Option.some.injEq] at hP1
    subst hP1
    obtain ⟨hres, hcache⟩ := getBlockMinerHeader_sound hc
    rw [hk] at hres hcache
    simp only at hres hcache
    have hs1 : CacheSound poa host c1 P := by
      rcases hcache with e | ⟨k2, _, e⟩
      · rw [e]; exact hsP
      · rw [e]; exact cacheSound_writeBlockMiner_fresh k2 hsP hfresh
    obtain ⟨_, l, hl, hin, _⟩ := canMineNextBlock_some ht
    rw [(getNextBlockMinerList_sound hdP hs1 P (CBlockIndex.self_mem_chain P)).1] at hl
    exact ⟨k, l, hres.symm, hl, hin⟩

theorem mem_chain_of_mem_recentBlocks : ∀ (w : Nat) (T x : CBlockIndex),
    x ∈ recentBlocks w T → x ∈ T.chain ∧ x.pprev ≠ none := by
  intro w
  induction w with
  | zero =>
    intro T x hx
    rw [recentBlocks_zero] at hx
    exact absurd hx (List.not_mem_nil x)
  | succ w ih =>
    intro T x hx
    cases T with
    | genesis h t s =>
      rw [recentBlocks_genesis] at hx
      exact absurd hx (List.not_mem_nil x)
    | child h t s P =>
      simp only [recentBlocks, List.mem_cons] at hx
      rcases hx with rfl | hx
      · exact ⟨CBlockIndex.self_mem_chain _, fun e => Option.noConfusion e⟩
      · obtain ⟨h1, h2⟩ := ih P x hx
        rw [CBlockIndex.chain_child]
        exact ⟨List.mem_cons_of_mem _ h1, h2⟩

/-- On a validated chain whose index entries agree with their headers, every non-genesis
entry has a recovered producer, and it is a roster member. -/
theorem accepted_producer {poa : BasicPoa} {host : Host} {T b : CBlockIndex}
    (hd : HashesDistinct T) (hacc : AcceptedChain poa host T) (hag : IndexAgrees host T)
    (hb : b ∈ T.chain) (hp : b.pprev ≠ none) :
    ∃ k, producerOf host b = some k ∧ k ∈ poa._miner_list := by
  have hagb := hag b hb hp
  cases b with
  | genesis h t s => exact absurd rfl hp
  | child h t s P =>
    obtain ⟨k, l, hk, hl, hin⟩ :=
      accepted_step_list (hashesDistinct_of_mem hd hb) (acceptedChain_of_mem hacc hb)
    exact ⟨k, hagb.trans hk, nextMinersSpec_subset hl k hin⟩

/-- C20: on a chain in which every non-genesis block was accepted by `checkBlock` against
its parent, with recovery from an index entry agreeing with recovery from its header (and
the genesis entry carrying a hash), `getNextBlockMinerList` succeeds for every block of
the chain taken as tip; for a non-genesis tip every recovery of the window succeeds and
the tip's producer is found in the roster. -/
theorem scheduler_succeeds_on_validated_chain (poa : BasicPoa) (host : Host)
    (c : MinerCache) (T : CBlockIndex) (hd : HashesDistinct T)
    (hacc : AcceptedChain poa host T) (hag : IndexAgrees host T)
    (hs : CacheSound poa host c T)
    (hg : ∀ b ∈ T.chain, b.pprev = none → b.phashBlock ≠ none) :
    ∀ b ∈ T.chain,
      (∃ l, (getNextBlockMinerList poa host c (some b)).1 = some l) ∧
        (b.pprev ≠ none →
          (∀ x ∈ recentBlocks (poa._miner_list.length / 2) b,
            ∃ k, producerOf host x = some k) ∧
          ∃ p, producerOf host b = some p ∧ p ∈ poa._miner_list) := by
  intro b hb
  have hlist := (getNextBlockMinerList_sound hd hs b hb).1
  by_cases hp : b.pprev = none
  · refine ⟨?_, fun e => absurd hp e⟩
    rw [hlist]
    obtain ⟨hash, hh⟩ := Option.ne_none_iff_exists'.mp (hg b hb hp)
    refine ⟨poa._miner_list, ?_⟩
    simp only [nextMinersSpec, hh, hp]
  · have hw : ∀ x ∈ recentBlocks (poa._miner_list.length / 2) b,
        ∃ k, producerOf host x = some k := by
      intro x hx
      obtain ⟨hx1, hx2⟩ := mem_chain_of_mem_recentBlocks _ b x hx
      obtain ⟨k, hk, _⟩ := accepted_producer hd hacc hag
        (CBlockIndex.chain_subset_of_mem hb x hx1) hx2
      exact ⟨k, hk⟩
    obtain ⟨p, hpp, hpm⟩ := accepted_producer hd hacc hag hb hp
    refine ⟨?_, fun _ => ⟨hw, p, hpp, hpm⟩⟩
    rw [hlist, nextMinersSpec_defined hp hpp hpm hw]
    exact ⟨_, rfl⟩

theorem Scenario.indexAgrees : IndexAgrees Scenario.host Scenario.blockC := by
  unfold IndexAgrees; decide

theorem scheduler_succeeds_on_validated_chain_witness :
    HashesDistinct Scenario.blockC ∧
      AcceptedChain Scenario.poa Scenario.host Scenario.blockC ∧
      IndexAgrees Scenario.host Scenario.blockC ∧
      CacheSound Scenario.poa Scenario.host MinerCache.empty Scenario.blockC ∧
      (∀ b ∈ Scenario.blockC.chain, b.pprev = none → b.phashBlock ≠ none) ∧
      ∀ b ∈ Scenario.blockC.chain,
        (∃ l, (getNextBlockMinerList Scenario.poa Scenario.host MinerCache.empty
          (some b)).1 = some l) ∧
          (b.pprev ≠ none →
            (∀ x ∈ recentBlocks (Scenario.poa._miner_list.length / 2) b,
              ∃ k, producerOf Scenario.host x = some k) ∧
            ∃ p, producerOf Scenario.host b = some p ∧ p ∈ Scenario.poa._miner_list) :=
  ⟨Scenario.hashesDistinct, Scenario.accepted, Scenario.indexAgrees,
    cacheSound_empty _ _ _, by decide,
    scheduler_succeeds_on_validated_chain Scenario.poa Scenario.host MinerCache.empty
      Scenario.blockC Scenario.hashesDistinct Scenario.accepted Scenario.indexAgrees
      (cacheSound_empty _ _ _) (by decide)⟩

/-! ## Start-up: `initParams` (C12, C13, C14) -/

/-- A successful run of the address loop appends the decoded keys, in order, to
`_miner_list`, keeps it duplicate-free and keeps `_miner_set` equal to its elements. -/
theorem minerListLoop_true (G : String → Option CKeyID) :
    ∀ (entries : List String) (l s l1 s1 : List CKeyID),
      minerListLoop G entries l s = (true, l1, s1) → (∀ k, k ∈ s ↔ k ∈ l) → l.Nodup →
      ∃ ks, entries.map G = ks.map some ∧ l1 = l ++ ks ∧ l1.Nodup ∧
        ∀ k, k ∈ s1 ↔ k ∈ l1 := by
  intro entries
  induction entries with
  | nil =>
    intro l s l1 s1 h hs hn
    simp only [minerListLoop, Prod.mk.injEq, true_and] at h
    obtain ⟨rfl, rfl⟩ := h
    exact ⟨[], rfl, (List.append_nil _).symm, hn, hs⟩
  | cons e rest ih =>
    intro l s l1 s1 h hs hn
    simp only [minerListLoop] at h
    cases hG : G e with
    | none => rw [hG] at h; simp at h
    | some k =>
      rw [hG] at h
      simp only at h
      by_cases hc : s.contains k = true
      · rw [if_pos hc] at h; simp at h
      · rw [if_neg hc] at h
        have hks : k ∉ s := by simpa using hc
        have hkl : k ∉ l := fun e1 => hks ((hs k).mpr e1)
        have hs2 : ∀ x, x ∈ s.insert k ↔ x ∈ l ++ [k] := by
          intro x
          rw [List.mem_insert_iff, List.mem_append, List.mem_singleton, hs x]
          exact or_comm
        have hn2 : (l ++ [k]).Nodup := by
          rw [List.nodup_append]
          refine ⟨hn, List.nodup_singleton k, ?_⟩
          intro x hx1 hx2
          rw [List.mem_singleton] at hx2
          subst hx2
          exact hkl hx1
        obtain ⟨ks, h1, h2, h3, h4⟩ := ih _ _ l1 s1 h hs2 hn2
        refine ⟨k :: ks, ?_, ?_, h3, h4⟩
        · simp only [List.map_cons, hG, h1]
        · rw [h2, List.append_assoc, List.singleton_append]

/-- What a successful `initParams` did: the argument was not empty, the address loop
succeeded with a non-empty list, and the members are the loop's list and set, the local
miner, the interval and the timeout as computed from the other three arguments. -/
theorem initParams_true {ah : ArgHost} {args : PoaArgs} {poa : BasicPoa}
    (h : (initParams ah args poa).1 = true) :
    args.poa_miner_list.length ≠ 0 ∧
      ∃ l s, minerListLoop ah.GetKeyID (boost_split args.poa_miner_list) [] [] =
          (true, l, s) ∧ l ≠ [] ∧
        (initParams ah args poa).2 =
          ⟨l, s,
            if args.poa_miner.length ≠ 0 then
              match ah.GetKeyID args.poa_miner with
              | some keyid => if s.contains keyid then keyid else poa._miner
              | none => poa._miner
            else poa._miner,
            match ah.ParseUInt32 args.poa_interval with
            | some n => n
            | none => 10,
            match ah.ParseUInt32 args.poa_timeout with
            | some n => n
            | none => 3⟩ := by
  unfold initParams at h ⊢
  by_cases h0 : args.poa_miner_list.length = 0
  · rw [if_pos h0] at h; exact Bool.noConfusion h
  · rw [if_neg h0] at h ⊢
    refine ⟨h0, ?_⟩
    simp only at h ⊢
    cases hloop : minerListLoop ah.GetKeyID (boost_split args.poa_miner_list) [] [] with
    | mk ok rest =>
      cases rest with
      | mk l s =>
        rw [hloop] at h
        cases ok with
        | false => exact Bool.noConfusion h
        | true =>
          simp only at h ⊢
          by_cases hl : l.length = 0
          · rw [if_pos hl] at h; exact Bool.noConfusion h
          · rw [if_neg hl]
            refine ⟨l, s, rfl, ?_, rfl⟩
            intro e
            rw [e] at hl
            exact hl rfl

/-- C12: `initParams` returns false when the `-poa-miner-list` argument is empty, when
an entry of the comma-separated list fails to decode, and when two entries decode to the
same key; whenever it returns true, `_miner_list` is not empty, holds the decoded keys of
the entries in the order given, has pairwise distinct elements, and `_miner_set` holds
exactly the elements of `_miner_list`. -/
theorem initParams_roster (ah : ArgHost) (args : PoaArgs) (poa : BasicPoa) :
    (args.poa_miner_list = "" → (initParams ah args poa).1 = false) ∧
      ((∃ e ∈ boost_split args.poa_miner_list, ah.GetKeyID e = none) →
        (initParams ah args poa).1 = false) ∧
      ((∃ (i j : Nat) (e1 e2 : String), i ≠ j ∧
          (boost_split args.poa_miner_list)[i]? = some e1 ∧
          (boost_split args.poa_miner_list)[j]? = some e2 ∧
          ah.GetKeyID e1 = ah.GetKeyID e2) →
        (initParams ah args poa).1 = false) ∧
      ((initParams ah args poa).1 = true →
        (initParams ah args poa).2._miner_list ≠ [] ∧
        (boost_split args.poa_miner_list).map ah.GetKeyID =
          (initParams ah args poa).2._miner_list.map some ∧
        (initParams ah args poa).2._miner_list.Nodup ∧
        ∀ k, k ∈ (initParams ah args poa).2._miner_set ↔
          k ∈ (initParams ah args poa).2._miner_list) := by
  have key : (initParams ah args poa).1 = true →
      (initParams ah args poa).2._miner_list ≠ [] ∧
      (boost_split args.poa_miner_list).map ah.GetKeyID =
        (initParams ah args poa).2._miner_list.map some ∧
      (initParams ah args poa).2._miner_list.Nodup ∧
      ∀ k, k ∈ (initParams ah args poa).2._miner_set ↔
        k ∈ (initParams ah args poa).2._miner_list := by
    intro h
    obtain ⟨_, l, s, hloop, hne, hres⟩ := initParams_true h
    obtain ⟨ks, h1, h2, h3, h4⟩ :=
      minerListLoop_true ah.GetKeyID _ [] [] l s hloop (fun _ => Iff.rfl) List.nodup_nil
    rw [List.nil_append] at h2
    subst h2
    rw [hres]
    exact ⟨hne, h1, h3, h4⟩
  refine ⟨?_, ?_, ?_, key⟩
  · intro he
    unfold initParams
    rw [he]
    rfl
  · rintro ⟨e, he, hnone⟩
    rw [Bool.eq_false_iff]
    intro h
    obtain ⟨_, hmap, _, _⟩ := key h
    have hmem : ah.GetKeyID e ∈ (boost_split args.poa_miner_list).map ah.GetKeyID :=
      List.mem_map_of_mem _ he
    rw [hmap, hnone, List.mem_map] at hmem
    obtain ⟨k, _, hk⟩ := hmem
    exact Option.noConfusion hk
  · rintro ⟨i, j, e1, e2, hij, hi, hj, hsame⟩
    rw [Bool.eq_false_iff]
    intro h
    obtain ⟨_, hmap, hnd, _⟩ := key h
    have h1 : ((boost_split args.poa_miner_list).map ah.GetKeyID)[i]? =
        some (ah.GetKeyID e1) := by
      rw [List.getElem?_map, hi]; rfl
    have h2 : ((boost_split args.poa_miner_list).map ah.GetKeyID)[j]? =
        some (ah.GetKeyID e2) := by
      rw [List.getElem?_map, hj]; rfl
    rw [hmap, List.getElem?_map] at h1 h2
    have heq : (initParams ah args poa).2._miner_list[i]? =
        (initParams ah args poa).2._miner_list[j]? := by
      apply Option.map_injective (Option.some_injective _)
      rw [h1, h2, hsame]
    have hlt : i < (initParams ah args poa).2._miner_list.length := by
      by_contra hge
      rw [List.getElem?_eq_none (not_lt.mp hge)] at h1
      exact Option.noConfusion h1
    exact hij (List.getElem?_inj hlt hnd heq)

theorem initParams_roster_witness :
    (initParams Scenario.argHost ⟨"", "D", "", ""⟩ Scenario.fresh).1 = false ∧
      (initParams Scenario.argHost ⟨"A,?,C", "", "", ""⟩ Scenario.fresh).1 = false ∧
      (initParams Scenario.argHost ⟨"A,B,A", "", "", ""⟩ Scenario.fresh).1 = false ∧
      (initParams Scenario.argHost ⟨"A,B,C,D", "D", "", ""⟩ Scenario.fresh).1 = true ∧
      (initParams Scenario.argHost ⟨"A,B,C,D", "D", "", ""⟩ Scenario.fresh).2._miner_list =
        [Scenario.A, Scenario.B, Scenario.C, Scenario.D] ∧
      (initParams Scenario.argHost ⟨"A,B,C,D", "D", "", ""⟩
        Scenario.fresh).2._miner_list.Nodup :=
  ⟨(initParams_roster Scenario.argHost ⟨"", "D", "", ""⟩ Scenario.fresh).1 rfl,
    (initParams_roster Scenario.argHost ⟨"A,?,C", "", "", ""⟩ Scenario.fresh).2.1
      ⟨"?", by decide, by decide⟩,
    (initParams_roster Scenario.argHost ⟨"A,B,A", "", "", ""⟩ Scenario.fresh).2.2.1
      ⟨0, 2, "A", "A", by decide, by decide, by decide, rfl⟩,
    by decide, by decide,
    ((initParams_roster Scenario.argHost ⟨"A,B,C,D", "D", "", ""⟩ Scenario.fresh).2.2.2
      (by decide)).2.2.1⟩

/-- C13 as stated fails: with the roster `A,B,C,D`, `initParams` returns true both when
`-poa-miner` is the malformed address `?` and when it is `X`, which decodes to a key that
is not in the roster; the local miner stays unset. -/
theorem initParams_miner_counterexample :
    Scenario.argHost.GetKeyID "?" = none ∧
      (initParams Scenario.argHost ⟨"A,B,C,D", "?", "", ""⟩ Scenario.fresh).1 = true ∧
      Scenario.argHost.GetKeyID "X" = some 9 ∧
      9 ∉ (initParams Scenario.argHost ⟨"A,B,C,D", "X", "", ""⟩
        Scenario.fresh).2._miner_list ∧
      (initParams Scenario.argHost ⟨"A,B,C,D", "X", "", ""⟩ Scenario.fresh).1 = true ∧
      (initParams Scenario.argHost ⟨"A,B,C,D", "X", "", ""⟩ Scenario.fresh).2._miner = 0 := by
  decide

/-- The flag returned by `initParams` in terms of the roster argument alone. -/
theorem initParams_fst (ah : ArgHost) (args : PoaArgs) (poa : BasicPoa) :
    (initParams ah args poa).1 =
      (decide (args.poa_miner_list.length ≠ 0) &&
        ((minerListLoop ah.GetKeyID (boost_split args.poa_miner_list) [] []).1 &&
          decide ((minerListLoop ah.GetKeyID
            (boost_split args.poa_miner_list) [] []).2.1.length ≠ 0))) := by
  unfold initParams
  by_cases h0 : args.poa_miner_list.length = 0
  · simp [h0]
  · rw [if_neg h0]
    simp only
    cases hloop : minerListLoop ah.GetKeyID (boost_split args.poa_miner_list) [] [] with
    | mk ok rest =>
      cases rest with
      | mk l s =>
        cases ok with
        | false => simp [h0]
        | true =>
          by_cases hl : l.length = 0
          · simp [h0, hl]
          · simp [h0, hl]

/-- Amended C13: the flag `initParams` returns does not depend on the `-poa-miner`
argument, so a malformed local miner address or one outside the roster does not make
initialization fail; after a successful run `_miner` is the decoded key when the argument
is not empty and decodes to a roster member, and is left as it was (unset) when the
address is malformed or its key is not in the roster. -/
theorem initParams_miner (ah : ArgHost) (args : PoaArgs) (poa : BasicPoa) :
    (∀ m : String, (initParams ah args poa).1 =
        (initParams ah ⟨args.poa_miner_list, m, args.poa_interval, args.poa_timeout⟩
          poa).1) ∧
      ((initParams ah args poa).1 = true →
        (∀ k, args.poa_miner.length ≠ 0 → ah.GetKeyID args.poa_miner = some k →
          k ∈ (initParams ah args poa).2._miner_list →
          (initParams ah args poa).2._miner = k) ∧
        (ah.GetKeyID args.poa_miner = none →
          (initParams ah args poa).2._miner = poa._miner) ∧
        (∀ k, ah.GetKeyID args.poa_miner = some k →
          k ∉ (initParams ah args poa).2._miner_list →
          (initParams ah args poa).2._miner = poa._miner)) := by
  refine ⟨fun m => ?_, fun h => ?_⟩
  · rw [initParams_fst, initParams_fst]
  · obtain ⟨_, l, s, hloop, _, hres⟩ := initParams_true h
    obtain ⟨_, _, _, _, hset⟩ :=
      minerListLoop_true ah.GetKeyID _ [] [] l s hloop (fun _ => Iff.rfl) List.nodup_nil
    rw [hres]
    simp only
    refine ⟨?_, ?_, ?_⟩
    · intro k hne hk hin
      have hc : s.contains k = true := by simpa using (hset k).mpr hin
      rw [if_pos hne, hk]
      simp only [hc, if_true]
    · intro hk
      rw [hk]
      simp
    · intro k hk hnot
      have hc : ¬ (s.contains k = true) := by
        intro e
        exact hnot ((hset k).mp (by simpa using e))
      rw [hk]
      simp only [hc, if_false]
      simp

/-- C14 as stated fails: `0` is a valid unsigned 32-bit integer, and with
`-poa-interval=0 -poa-timeout=0` a successful `initParams` leaves interval and timeout
at 0. -/
theorem initParams_cadence_counterexample :
    Scenario.argHost.ParseUInt32 "0" = some 0 ∧
      (initParams Scenario.argHost ⟨"A,B,C,D", "D", "0", "0"⟩ Scenario.fresh).1 = true ∧
      (initParams Scenario.argHost ⟨"A,B,C,D", "D", "0", "0"⟩ Scenario.fresh).2._interval =
        0 ∧
      (initParams Scenario.argHost ⟨"A,B,C,D", "D", "0", "0"⟩ Scenario.fresh).2._timeout =
        0 := by
  decide

/-- Amended C14: after a successful `initParams` the interval and the timeout are the
values `ParseUInt32` reads from `-poa-interval` and `-poa-timeout`, and 10 and 3
respectively when the argument is absent or not a valid unsigned 32-bit integer; each is
greater than 0 unless its argument parses to 0. -/
theorem initParams_cadence (ah : ArgHost) (args : PoaArgs) (poa : BasicPoa)
    (h : (initParams ah args poa).1 = true) :
    (initParams ah args poa).2._interval = (ah.ParseUInt32 args.poa_interval).getD 10 ∧
      (initParams ah args poa).2._timeout = (ah.ParseUInt32 args.poa_timeout).getD 3 ∧
      (ah.ParseUInt32 args.poa_interval = none →
        (initParams ah args poa).2._interval = 10) ∧
      (ah.ParseUInt32 args.poa_timeout = none →
        (initParams ah args poa).2._timeout = 3) ∧
      (ah.ParseUInt32 args.poa_interval ≠ some 0 →
        0 < (initParams ah args poa).2._interval) ∧
      (ah.ParseUInt32 args.poa_timeout ≠ some 0 →
        0 < (initParams ah args poa).2._timeout) := by
  obtain ⟨_, l, s, _, _, hres⟩ := initParams_true h
  rw [hres]
  simp only
  refine ⟨?_, ?_, ?_, ?_, ?_, ?_⟩
  · cases ah.ParseUInt32 args.poa_interval <;> rfl
  · cases ah.ParseUInt32 args.poa_timeout <;> rfl
  · intro e; rw [e]
  · intro e; rw [e]
  · intro e
    cases hp : ah.ParseUInt32 args.poa_interval with
    | none => exact Nat.succ_pos _
    | some n =>
      rw [hp] at e
      exact Nat.pos_of_ne_zero (fun e0 => e (congrArg some e0))
  · intro e
    cases hp : ah.ParseUInt32 args.poa_timeout with
    | none => exact Nat.succ_pos _
    | some n =>
      rw [hp] at e
      exact Nat.pos_of_ne_zero (fun e0 => e (congrArg some e0))

theorem initParams_cadence_witness :
    (initParams Scenario.argHost ⟨"A,B,C,D", "D", "", "3x"⟩ Scenario.fresh).1 = true ∧
      Scenario.argHost.ParseUInt32 "" = none ∧
      Scenario.argHost.ParseUInt32 "3x" = none ∧
      (initParams Scenario.argHost ⟨"A,B,C,D", "D", "", "3x"⟩ Scenario.fresh).2._interval =
        10 ∧
      (initParams Scenario.argHost ⟨"A,B,C,D", "D", "", "3x"⟩ Scenario.fresh).2._timeout =
        3 :=
  have h := initParams_cadence Scenario.argHost ⟨"A,B,C,D", "D", "", "3x"⟩ Scenario.fresh
    (by decide)
  ⟨by decide, by decide, by decide, h.2.2.1 (by decide), h.2.2.2.1 (by decide)⟩

/-! ## Block production: `createNextBlock` (C17) and the miner loop (C16) -/

/-- C17, the code at the failing input: when `CreateNewBlock` yields no template,
`createNextBlock` does not return false; it ends in the dereference of the null template
pointer. A returned `false` comes only from a failed signature: the `if (!pblock)` test
is never taken. -/
theorem createNextBlock_null_template (host : Host) (bh : BuildHost)
    (next_block_time : Nat) (h : bh.CreateNewBlock next_block_time = none) :
    createNextBlock host bh next_block_time = CreateOutcome.nullDereference ∧
      (∀ p, createNextBlock host bh next_block_time ≠ CreateOutcome.returned false p) ∧
      ∀ (host1 : Host) (bh1 : BuildHost) (t : Nat) (p : Option CBlock),
        createNextBlock host1 bh1 t = CreateOutcome.returned false p →
        ∃ b, bh1.CreateNewBlock t = some b ∧
          sign host1 bh1 (some (bh1.SetMerkleRoot b)) = none := by
  have h1 : createNextBlock host bh next_block_time = CreateOutcome.nullDereference := by
    simp only [createNextBlock, h]
  refine ⟨h1, ?_, ?_⟩
  · intro p e
    rw [h1] at e
    exact CreateOutcome.noConfusion e
  · intro host1 bh1 t p e
    simp only [createNextBlock] at e
    cases hb : bh1.CreateNewBlock t with
    | none => rw [hb] at e; exact CreateOutcome.noConfusion e
    | some b =>
      rw [hb] at e
      simp only at e
      refine ⟨b, rfl, ?_⟩
      cases hs : sign host1 bh1 (some (bh1.SetMerkleRoot b)) with
      | none => rfl
      | some signed =>
        rw [hs] at e
        simp only [CreateOutcome.returned.injEq] at e
        exact Bool.noConfusion e.1

theorem createNextBlock_null_template_witness :
    Scenario.noTemplate.CreateNewBlock 1046 = none ∧
      createNextBlock Scenario.host Scenario.noTemplate 1046 =
        CreateOutcome.nullDereference ∧
      (minerIteration Scenario.poa Scenario.host Scenario.noTemplate Scenario.steady).1 =
        IterationResult.nullDereference :=
  ⟨rfl,
    (createNextBlock_null_template Scenario.host Scenario.noTemplate 1046 rfl).1,
    by decide⟩

/-- The tip reads of the wait loop: all of them but the last returned the current tip. -/
theorem waitLoop_reads (t : Nat) (cur : Option CBlockIndex) :
    ∀ (clocks : List Int) (tips : List (Option CBlockIndex))
      (clocks1 : List Int) (tips1 : List (Option CBlockIndex)),
      waitLoop t cur clocks tips = some (clocks1, tips1) →
      ∃ waits, tips = waits ++ tips1 ∧ ∀ x ∈ waits.dropLast, x = cur := by
  intro clocks
  induction clocks with
  | nil =>
    intro tips clocks1 tips1 h
    simp [waitLoop] at h
  | cons now clocks ih =>
    intro tips clocks1 tips1 h
    simp only [waitLoop] at h
    by_cases hlt : now < (t : Int)
    · rw [if_pos hlt] at h
      cases tips with
      | nil => simp at h
      | cons tip rest =>
        simp only at h
        by_cases he : tip = cur
        · rw [if_pos he] at h
          obtain ⟨waits, h1, h2⟩ := ih rest clocks1 tips1 h
          refine ⟨tip :: waits, by rw [h1]; rfl, ?_⟩
          intro x hx
          cases waits with
          | nil => simp at hx
          | cons w ws =>
            rw [List.dropLast_cons₂, List.mem_cons] at hx
            rcases hx with rfl | hx
            · exact he
            · exact h2 x hx
        · rw [if_neg he] at h
          simp only [Option.some.injEq, Prod.mk.injEq] at h
          refine ⟨[tip], by rw [← h.2]; rfl, ?_⟩
          intro x hx
          simp at hx
    · rw [if_neg hlt] at h
      simp only [Option.some.injEq, Prod.mk.injEq] at h
      refine ⟨[], by rw [← h.2]; rfl, ?_⟩
      intro x hx
      simp at hx

/-- C16 as stated fails: in the pass `flapping` the tip read inside the wait returns
block `B`, which ends the wait, the read after the wait returns `C` again, and
`ProcessNewBlock` is called although one tip read of the pass differs from the first. -/
theorem minerIteration_counterexample :
    (minerIteration Scenario.poa Scenario.host Scenario.buildHost Scenario.flapping).1 =
        IterationResult.submitted ⟨103, 1046, [Scenario.D], 104⟩ true ∧
      (minerIteration Scenario.poa Scenario.host Scenario.buildHost
        Scenario.flapping).2.tips = [] ∧
      Scenario.flapping.tips[0]? = some (some Scenario.blockC) ∧
      Scenario.flapping.tips[3]? = some (some Scenario.blockB) ∧
      some Scenario.blockB ≠ some Scenario.blockC := by
  decide

/-- Amended C16: in a pass of the miner loop `ProcessNewBlock` is called only if the tip
differs from the one of the previous pass and the tip reads after the eligibility check,
after block creation and after the wait all returned the tip read at the start of the
pass; of the reads made inside the wait, all but the last returned that tip (a differing
read ends the wait, and the decision is taken on the read after it). -/
theorem minerIteration_submitted (poa : BasicPoa) (host : Host) (bh : BuildHost)
    (st st1 : LoopState) (pblock : CBlock) (ok : Bool)
    (h : minerIteration poa host bh st = (IterationResult.submitted pblock ok, st1)) :
    ∃ cur waits, st.tips = cur :: cur :: cur :: (waits ++ cur :: st1.tips) ∧
      (∀ x ∈ waits.dropLast, x = cur) ∧ st.p_last_index ≠ cur ∧
      st1.p_last_index = cur ∧ ok = bh.ProcessNewBlock pblock := by
  unfold minerIteration at h
  split at h
  · simp at h
  · rename_i cur tips1 htips
    split at h
    · simp at h
    · rename_i hne
      split at h
      · simp at h
      · simp at h
      · split at h
        · simp at h
        · rename_i tip2 tips2
          split at h
          · simp at h
          · rename_i h2
            split at h
            · simp at h
            · simp at h
            · simp at h
            · split at h
              · simp at h
              · rename_i tip3 tips3
                split at h
                · simp at h
                · rename_i h3
                  split at h
                  · simp at h
                  · rename_i clocks2 tips4 hw
                    split at h
                    · simp at h
                    · rename_i tip5 tips5
                      split at h
                      · simp at h
                      · rename_i h5
                        simp only [Prod.mk.injEq, IterationResult.submitted.injEq] at h
                        obtain ⟨⟨hpb, hok⟩, hst⟩ := h
                        subst hpb
                        obtain ⟨waits, hw1, hw2⟩ := waitLoop_reads _ _ _ _ _ _ hw
                        have e2 : tip2 = cur := by
                          by_contra hc; exact h2 (fun e => hc e.symm)
                        have e3 : tip3 = cur := by
                          by_contra hc; exact h3 (fun e => hc e.symm)
                        have e5 : tip5 = cur := by
                          by_contra hc; exact h5 hc
                        subst e2 e3 e5
                        refine ⟨tip5, waits, ?_, hw2, hne, ?_, hok.symm⟩
                        · rw [htips, hw1, ← hst]
                        · rw [← hst]

theorem minerIteration_submitted_witness :
    minerIteration Scenario.poa Scenario.host Scenario.buildHost Scenario.steady =
        (IterationResult.submitted ⟨103, 1046, [Scenario.D], 104⟩ true,
          (minerIteration Scenario.poa Scenario.host Scenario.buildHost
            Scenario.steady).2) ∧
      ∃ cur waits,
        Scenario.steady.tips = cur :: cur :: cur ::
          (waits ++ cur :: (minerIteration Scenario.poa Scenario.host Scenario.buildHost
            Scenario.steady).2.tips) ∧
        (∀ x ∈ waits.dropLast, x = cur) ∧ Scenario.steady.p_last_index ≠ cur ∧
        (minerIteration Scenario.poa Scenario.host Scenario.buildHost
          Scenario.steady).2.p_last_index = cur ∧
        true = Scenario.buildHost.ProcessNewBlock ⟨103, 1046, [Scenario.D], 104⟩ :=
  have h : minerIteration Scenario.poa Scenario.host Scenario.buildHost Scenario.steady =
      (IterationResult.submitted ⟨103, 1046, [Scenario.D], 104⟩ true,
        (minerIteration Scenario.poa Scenario.host Scenario.buildHost
          Scenario.steady).2) := Prod.ext (by decide) rfl
  ⟨h, minerIteration_submitted Scenario.poa Scenario.host Scenario.buildHost
    Scenario.steady _ _ true h⟩

end Poa
